import Mathlib

/-!
Verification of the wow-gold.js currency-expression library.

This development shallow-embeds the library's expression grammars (anchored
regular expressions over input strings, realised here as deterministic
recognisers on `List Char`), the parser functions that turn a match's capture
groups into an exact smallest-unit ("copper") amount, and the `Gold` value
type with its segment derivation, string formatting and bounded big-integer
conversion.  The arbitrary-precision decimal primitive (`decimal.js`) is
modelled by exact rational arithmetic, following the specification's stated
boundary ("exact base-10 arithmetic" as a supplied capability); the non-finite
decimal values needed for division by zero are modelled by an explicit
extended-value type.
-/

namespace WowGold

/-! ## Characters and digit strings -/

def isDig (c : Char) : Bool := c.isDigit

def digVal (c : Char) : ℕ := c.toNat - '0'.toNat

/-- Numeric value of a digit string, most significant digit first. -/
def natOfDigits (ds : List Char) : ℕ := ds.foldl (fun n c => 10 * n + digVal c) 0

/-- Value of `0.<ds>`, the reading of a fractional capture group. -/
def fracOfDigits (ds : List Char) : ℚ := (natOfDigits ds : ℚ) / (10 : ℚ) ^ ds.length

def isSep (c : Char) : Bool := c == ',' || c == '_'

/-- The `.replace(/[,_]/g, '')` step applied to every integer capture. -/
def stripSeps (ds : List Char) : List Char := ds.filter (fun c => !isSep c)

def isGoldNote (c : Char) : Bool := c == 'g' || c == 'k' || c == 'm' || c == 'b'

def isWS (c : Char) : Bool := c == ' ' || c == '\t' || c == '\n' || c == '\r'

/-- `String.prototype.trim` on the input before matching. -/
def trim (cs : List Char) : List Char :=
  ((cs.dropWhile isWS).reverse.dropWhile isWS).reverse

/-- Prefix the sign captured by the `neg` group, as done by building a decimal
from the string `` `${match.neg ?? ""}${digits}` ``. -/
def appSign (neg : Bool) (q : ℚ) : ℚ := if neg then -q else q

/-! ## Unit constants (gold.ts) -/

def COPPER_PER_SILVER : ℚ := 100

def COPPER_PER_GOLD : ℚ := 10000

/-- `GoldNotationMultiplier` table of gold.ts. -/
def goldNoteMult (c : Char) : ℚ :=
  if c == 'k' then 1000 else if c == 'm' then 1000000 else
  if c == 'b' then 1000000000 else 1

/-- `Gold.getGoldNotationCopperMultiplier`: an absent or invalid letter
defaults to `g`. -/
def goldNoteCopperMult (o : Option Char) : ℚ :=
  match o with
  | some c => if isGoldNote c then goldNoteMult c * COPPER_PER_GOLD else COPPER_PER_GOLD
  | none => COPPER_PER_GOLD

/-! ## Regular-expression components

Each source grammar is an anchored regular expression `(?<=^)...(?=$)`.  The
recognisers below consume the input left to right, one component per regex
group, returning the captured characters and the remaining input.  Greedy
quantifiers are implemented greedily; the determinizations (committing to the
grouped integer alternative, to a matched suffix alternative, and to the
longest digit runs) are faithful because on every failing continuation the
leftover input starts with a character — a digit, a group separator or a unit
letter misplaced for the following component — that no later component or the
end anchor can consume, so a backtracking engine fails on exactly the same
inputs. -/

/-- Case-folding equality used by the `/i`-flagged grammars for unit letters
(`letter` is given in lower case). -/
def charEqCI (ci : Bool) (c letter : Char) : Bool :=
  if ci then c.toLower == letter else c == letter

/-- The optional leading `(?<neg>[-]){0,1}` group. -/
def negCapture (cs : List Char) : Bool × List Char :=
  match cs with
  | c :: rest => if c = '-' then (true, rest) else (false, c :: rest)
  | [] => (false, [])

/-- The `(?:(?:[,]\d{3})+|(?:[_]\d{3})+)` tail of a digit-grouped integer:
greedily take `sep` followed by exactly three digits, as often as possible. -/
def sepGroups (sep : Char) : List Char → List Char × List Char
  | s :: a :: b :: c :: rest =>
    if s == sep && isDig a && isDig b && isDig c then
      let (g, r) := sepGroups sep rest
      (s :: a :: b :: c :: g, r)
    else ([], s :: a :: b :: c :: rest)
  | cs => ([], cs)

/-- One separator flavour of the grouped-integer alternative
`\d{1,3}(?:sep\d{3})+`: the leading digit run must have one to three digits
and at least one separated group must follow. -/
def sepGroupedInt (sep : Char) (cs : List Char) : Option (List Char × List Char) :=
  let d0 := cs.takeWhile isDig
  if d0.length = 0 || 3 < d0.length then none
  else
    match sepGroups sep (cs.dropWhile isDig) with
    | ([], _) => none
    | (g, r) => some (d0 ++ g, r)

/-- The integer capture `(?:\d{1,3}(?:(?:[,]\d{3})+|(?:[_]\d{3})+))|\d+`
shared by the gold and copper groups: comma-grouped, then underscore-grouped,
then a plain digit run. -/
def goldIntCapture (cs : List Char) : Option (List Char × List Char) :=
  match sepGroupedInt ',' cs with
  | some res => some res
  | none =>
    match sepGroupedInt '_' cs with
    | some res => some res
    | none =>
      let d0 := cs.takeWhile isDig
      if d0.length = 0 then none else some (d0, cs.dropWhile isDig)

/-- The optional fractional group `(?:[.](?<frac>\d+)){0,1}`. -/
def fracCapture (cs : List Char) : Option (List Char) × List Char :=
  match cs with
  | c :: rest =>
    if c = '.' then
      if (rest.takeWhile isDig).length = 0 then (none, c :: rest)
      else (some (rest.takeWhile isDig), rest.dropWhile isDig)
    else (none, c :: rest)
  | [] => (none, [])

/-- The optional `(?<goldNotation>[gkmb]){0,1}` group (GenericGold is compiled
without the `i` flag, so only lower-case letters match). -/
def noteCapture (cs : List Char) : Option Char × List Char :=
  match cs with
  | c :: rest => if isGoldNote c then (some c, rest) else (none, c :: rest)
  | [] => (none, [])

/-- Does already-matched text (most recent character first) end with `[.]\d+`,
i.e. a dot followed by one or more digits?  This is the inner negative
lookbehind of the GenericGold suffix parts. -/
def endsDotDigits (rev : List Char) : Bool :=
  let ds := rev.takeWhile isDig
  !ds.isEmpty && ((rev.dropWhile isDig).head? == some '.')

/-- The lookbehind `(?<=(?<![.]\d+)[gkmb])` guarding both suffix alternatives
of GenericGold: the previously matched character is a notation letter that is
not itself preceded by a fractional group. -/
def suffixGate (rev : List Char) : Bool :=
  match rev with
  | c :: rev' => isGoldNote c && !endsDotDigits rev'
  | [] => false

/-- A `\d{1,2}` capture followed by the fixed unit letter: two digits are
preferred, one digit is the backtracking fallback. -/
def twoDigitUnit (ci : Bool) (letter : Char) (cs : List Char) :
    Option (List Char × List Char) :=
  match cs with
  | d1 :: d2 :: c :: rest =>
    if isDig d1 && isDig d2 && charEqCI ci c letter then some ([d1, d2], rest)
    else if isDig d1 && charEqCI ci d2 letter then some ([d1], c :: rest)
    else none
  | [d1, d2] => if isDig d1 && charEqCI ci d2 letter then some ([d1], []) else none
  | _ => none

/-! ## GenericGoldExpressionType -/

inductive GGSuffix where
  | andSC (silver copper : List Char)
  | orS (silver : List Char)
  | orC (copper : List Char)
deriving Repr, DecidableEq

/-- The `silverAndCopperSuffix` part
`(?:(?<=(?<![.]\d+)[gkmb])[ ]*(?<and_silver>\d{1,2})[s][ ]*(?<and_copper>\d{1,2})[c])`. -/
def andSuffixCapture (rev cs : List Char) : Option ((List Char × List Char) × List Char) :=
  if suffixGate rev then
    match twoDigitUnit false 's' (cs.dropWhile (· == ' ')) with
    | none => none
    | some (sd, r2) =>
      match twoDigitUnit false 'c' (r2.dropWhile (· == ' ')) with
      | none => none
      | some (cd, r4) => some ((sd, cd), r4)
  else none

/-- The `silverOrCopperSuffix` part
`(?:(?<=(?<![.]\d+)[gkmb])[ ]*(?:(?<or_silver>\d{1,2})[s]|(?<or_copper>\d{1,2})[c]))`. -/
def orSuffixCapture (rev cs : List Char) : Option (GGSuffix × List Char) :=
  if suffixGate rev then
    let r1 := cs.dropWhile (· == ' ')
    match twoDigitUnit false 's' r1 with
    | some (sd, r2) => some (.orS sd, r2)
    | none =>
      match twoDigitUnit false 'c' r1 with
      | some (cd, r2) => some (.orC cd, r2)
      | none => none
  else none

/-- The combined optional suffix `(?:and|or){0,1}`, preferring the
silver-and-copper alternative as the source alternation does. -/
def ggSuffixCapture (rev cs : List Char) : Option GGSuffix × List Char :=
  match andSuffixCapture rev cs with
  | some ((sd, cd), r) => (some (.andSC sd cd), r)
  | none =>
    match orSuffixCapture rev cs with
    | some (sfx, r) => (some sfx, r)
    | none => (none, cs)

/-- Capture groups of a successful GenericGold match. -/
structure GGCap where
  neg : Bool
  gold : List Char
  frac : Option (List Char)
  gnote : Option Char
  sfx : Option GGSuffix
deriving Repr, DecidableEq

/-- The text matched by the gold part (most recent character first), at which
position the suffix lookbehind is evaluated. -/
def ggRev (nb : Bool) (g : List Char) (fr : Option (List Char)) (nt : Option Char) :
    List Char :=
  (match nt with | some c => [c] | none => []) ++
  (match fr with | some f => f.reverse ++ ['.'] | none => []) ++
  g.reverse ++ (if nb then ['-'] else [])

/-- The anchored GenericGold expression: gold part followed by the gated
optional suffix, consuming the entire input.  `ggRev` reconstructs the text
matched so far for the suffix lookbehind; each capture function consumes
exactly the characters it returns (plus the dot before a fractional group),
so it coincides with the consumed input. -/
def genericGoldMatch (cs : List Char) : Option GGCap :=
  let (nb, r0) := negCapture cs
  match goldIntCapture r0 with
  | none => none
  | some (g, r1) =>
    let (fr, r2) := fracCapture r1
    let (nt, r3) := noteCapture r2
    let (sfx, r4) := ggSuffixCapture (ggRev nb g fr nt) r3
    if r4.isEmpty then some ⟨nb, g, fr, nt, sfx⟩ else none

def ggSilverCap (m : GGCap) : Option (List Char) :=
  match m.sfx with
  | some (.andSC s _) => some s
  | some (.orS s) => some s
  | _ => none

def ggCopperCap (m : GGCap) : Option (List Char) :=
  match m.sfx with
  | some (.andSC _ c) => some c
  | some (.orC c) => some c
  | _ => none

/-- The GenericGoldExpressionType parser callback: the gold capture times the
notation copper multiplier, then the fractional gold capture times
`COPPER_PER_GOLD`, then the silver and copper captures, each term carrying the
captured sign. -/
def genericGoldValue (m : GGCap) : ℚ :=
  let base := appSign m.neg (natOfDigits (stripSeps m.gold)) * goldNoteCopperMult m.gnote
  let withFrac :=
    match m.frac with
    | some f => base + appSign m.neg (fracOfDigits f) * COPPER_PER_GOLD
    | none => base
  let withSilver :=
    match ggSilverCap m with
    | some s => withFrac + appSign m.neg (natOfDigits s) * COPPER_PER_SILVER
    | none => withFrac
  match ggCopperCap m with
  | some c => withSilver + appSign m.neg (natOfDigits c)
  | none => withSilver

def genericGoldParseCopper (cs : List Char) : Option ℚ :=
  (genericGoldMatch cs).map genericGoldValue

/-! ## ExplicitCopperExpressionType -/

structure ECCap where
  neg : Bool
  explicitCopper : List Char
  fractionalCopper : Option (List Char)
deriving Repr, DecidableEq

/-- `(?:(?<=^)(?<neg>[-]){0,1}(?<explicitCopper>INT)(?:[.](?<fractionalCopper>\d+)){0,1}[c](?=$))/i`. -/
def explicitCopperMatch (cs : List Char) : Option ECCap :=
  let (nb, r0) := negCapture cs
  match goldIntCapture r0 with
  | none => none
  | some (d, r1) =>
    let (fr, r2) := fracCapture r1
    match r2 with
    | c :: rest =>
      if charEqCI true c 'c' && rest.isEmpty then some ⟨nb, d, fr⟩ else none
    | [] => none

/-- ExplicitCopper parser: a single decimal built from
`` `${neg}${int}${.frac}` ``, so the sign covers the whole numeral. -/
def explicitCopperValue (m : ECCap) : ℚ :=
  appSign m.neg ((natOfDigits (stripSeps m.explicitCopper) : ℚ) +
    (match m.fractionalCopper with | some f => fracOfDigits f | none => 0))

def explicitCopperParseCopper (cs : List Char) : Option ℚ :=
  (explicitCopperMatch cs).map explicitCopperValue

/-! ## SilverAndCopperExpressionType -/

structure SACCap where
  neg : Bool
  and_silver : List Char
  and_copper : List Char
deriving Repr, DecidableEq

/-- `(?:(?<=^)(?<neg>[-]){0,1}(?:(?<and_silver>\d{1,2})[s][ ]*(?<and_copper>\d{1,2})[c])(?=$))/i`. -/
def silverAndCopperMatch (cs : List Char) : Option SACCap :=
  let (nb, r0) := negCapture cs
  match twoDigitUnit true 's' r0 with
  | none => none
  | some (sd, r1) =>
    match twoDigitUnit true 'c' (r1.dropWhile (· == ' ')) with
    | none => none
    | some (cd, r3) => if r3.isEmpty then some ⟨nb, sd, cd⟩ else none

/-- SilverAndCopper parser: `new Decimal(`${neg}${silver}`).add(copper)` —
the captured sign is applied to the silver term only; the copper term is
added unsigned. -/
def silverAndCopperValue (m : SACCap) : ℚ :=
  appSign m.neg ((natOfDigits m.and_silver : ℚ) * COPPER_PER_SILVER) +
    (natOfDigits m.and_copper : ℚ)

def silverAndCopperParseCopper (cs : List Char) : Option ℚ :=
  (silverAndCopperMatch cs).map silverAndCopperValue

/-! ## SilverOrCopperExpressionType -/

structure SOCCap where
  neg : Bool
  or_silver : Option (List Char)
  or_copper : Option (List Char)
deriving Repr, DecidableEq

/-- `(?:(?<=^)(?<neg>[-]){0,1}(?:(?<or_silver>\d{1,2})[s]|(?<or_copper>\d{1,2})[c])(?=$))/i`. -/
def silverOrCopperMatch (cs : List Char) : Option SOCCap :=
  let (nb, r0) := negCapture cs
  match twoDigitUnit true 's' r0 with
  | some (sd, r1) => if r1.isEmpty then some ⟨nb, some sd, none⟩ else none
  | none =>
    match twoDigitUnit true 'c' r0 with
    | some (cd, r1) => if r1.isEmpty then some ⟨nb, none, some cd⟩ else none
    | none => none

/-- SilverOrCopper parser: as in SilverAndCopper the sign is prefixed to the
silver term only, so a pure copper match ignores the sign (`-0` plus the
copper amount). -/
def silverOrCopperValue (m : SOCCap) : ℚ :=
  let silver : ℚ :=
    match m.or_silver with
    | some s => (natOfDigits s : ℚ) * COPPER_PER_SILVER
    | none => 0
  let copper : ℚ :=
    match m.or_copper with
    | some c => (natOfDigits c : ℚ)
    | none => 0
  appSign m.neg silver + copper

def silverOrCopperParseCopper (cs : List Char) : Option ℚ :=
  (silverOrCopperMatch cs).map silverOrCopperValue

/-! ## ExplicitGoldExpressionType -/

structure EGCap where
  neg : Bool
  gold : List Char
  frac : Option (List Char)
  gnote : Char
deriving Repr, DecidableEq

/-- `(?:(?<=^)(?<neg>[-]){0,1}(?<gold>INT)(?:[.](?<fractionalGold>\d+)){0,1}(?<goldNotation>[gkmb])(?=$))`. -/
def explicitGoldMatch (cs : List Char) : Option EGCap :=
  let (nb, r0) := negCapture cs
  match goldIntCapture r0 with
  | none => none
  | some (g, r1) =>
    let (fr, r2) := fracCapture r1
    match r2 with
    | c :: rest => if isGoldNote c && rest.isEmpty then some ⟨nb, g, fr, c⟩ else none
    | [] => none

/-- Parser of gold-expression-types/explicit-gold-expression-type.ts: the
fractional capture is scaled by `COPPER_PER_GOLD` only, exactly as in
GenericGold. -/
def explicitGoldValue (m : EGCap) : ℚ :=
  appSign m.neg (natOfDigits (stripSeps m.gold)) * goldNoteCopperMult (some m.gnote) +
    (match m.frac with
     | some f => appSign m.neg (fracOfDigits f) * COPPER_PER_GOLD
     | none => 0)

/-- Parser of the second ExplicitGoldExpressionType present in the repository
(the case-insensitive variant), which instead scales the whole `INT.FRAC`
numeral by the notation multiplier. -/
def explicitGoldValueAlt (m : EGCap) : ℚ :=
  appSign m.neg ((natOfDigits (stripSeps m.gold) : ℚ) +
      (match m.frac with | some f => fracOfDigits f | none => 0)) *
    goldNoteCopperMult (some m.gnote)

def explicitGoldParseCopper (cs : List Char) : Option ℚ :=
  (explicitGoldMatch cs).map explicitGoldValue

/-! ## Error taxonomy and dispatch (gold.ts) -/

inductive GoldError where
  | invalidGoldExpressionNull
  | invalidGoldExpressionNoMatch
  | unsafeNumber
  | infiniteValue
  | valueNaN
  | typeMismatch
deriving Repr, DecidableEq

inductive GoldErrorClass where
  | invalidGoldExpression
  | malformedGoldExpression
  | unsafeNumber
  | infiniteValue
  | valueNaN
  | typeMismatch
deriving Repr, DecidableEq

/-- The JavaScript error class raised for each failure.  Both parse-failure
modes construct `InvalidGoldExpressionError` (with different messages);
`MalformedGoldExpressionError` is declared in the repository but never thrown
by `Gold.parse`. -/
def GoldError.toClass : GoldError → GoldErrorClass
  | .invalidGoldExpressionNull => .invalidGoldExpression
  | .invalidGoldExpressionNoMatch => .invalidGoldExpression
  | .unsafeNumber => .unsafeNumber
  | .infiniteValue => .infiniteValue
  | .valueNaN => .valueNaN
  | .typeMismatch => .typeMismatch

/-- The ordered default expression-type parsers of `Gold.parse` /
`Gold.isGoldExpression`: ExplicitCopper, SilverAndCopper, SilverOrCopper,
GenericGold. -/
def defaultParsers : List (List Char → Option ℚ) :=
  [explicitCopperParseCopper, silverAndCopperParseCopper,
   silverOrCopperParseCopper, genericGoldParseCopper]

def firstSome (fs : List (List Char → Option ℚ)) (cs : List Char) : Option ℚ :=
  match fs with
  | [] => none
  | f :: rest =>
    match f cs with
    | some q => some q
    | none => firstSome rest cs

/-- `Gold.parse` with no pinned expression type: `none` models a
`null`/`undefined` argument, on which the first tried type's `match` throws
`InvalidGoldExpressionError.fromNullOrUndefined`; after the trim, the default
types are tried in order and the first defined result wins; if all are
undefined, `new InvalidGoldExpressionError(expression, null)` is thrown. -/
def goldParse (expr : Option (List Char)) (doNotTrim : Bool) : Except GoldError ℚ :=
  match expr with
  | none => .error .invalidGoldExpressionNull
  | some cs =>
    match firstSome defaultParsers (if doNotTrim then cs else trim cs) with
    | some q => .ok q
    | none => .error .invalidGoldExpressionNoMatch

def explicitCopperTest (cs : List Char) : Bool := (explicitCopperMatch cs).isSome

def silverAndCopperTest (cs : List Char) : Bool := (silverAndCopperMatch cs).isSome

def silverOrCopperTest (cs : List Char) : Bool := (silverOrCopperMatch cs).isSome

def genericGoldTest (cs : List Char) : Bool := (genericGoldMatch cs).isSome

def defaultTests : List (List Char → Bool) :=
  [explicitCopperTest, silverAndCopperTest, silverOrCopperTest, genericGoldTest]

/-- `Gold.isGoldExpression` with no pinned type: `false` on `null`/absent
input, otherwise the same ordered search using `GoldExpressionType.test`. -/
def goldIsExpression (expr : Option (List Char)) (doNotTrim : Bool) : Bool :=
  match expr with
  | none => false
  | some cs => defaultTests.any (fun t => t (if doNotTrim then cs else trim cs))

/-! ## The Gold value type (gold.ts) -/

/-- `Decimal.prototype.trunc`: round toward zero. -/
def ratTrunc (q : ℚ) : ℤ := if q < 0 then ⌈q⌉ else ⌊q⌋

/-- `Decimal.prototype.mod`: the remainder of truncated division, with the
sign of the dividend. -/
def decMod (x y : ℚ) : ℚ := x - y * ratTrunc (x / y)

/-- The `gold` getter: `abs().div(COPPER_PER_GOLD).floor()`. -/
def goldSeg (q : ℚ) : ℤ := ⌊|q| / COPPER_PER_GOLD⌋

/-- The `silver` getter:
`abs().mod(COPPER_PER_GOLD).div(COPPER_PER_SILVER).floor()`. -/
def silverSeg (q : ℚ) : ℤ := ⌊decMod |q| COPPER_PER_GOLD / COPPER_PER_SILVER⌋

/-- The `copper` getter: `abs().mod(COPPER_PER_SILVER).floor()`. -/
def copperSeg (q : ℚ) : ℤ := ⌊decMod |q| COPPER_PER_SILVER⌋

/-- The `isNegative` getter (`rawCopper.isNegative()`); rationals have no
negative zero, so this is an ordinary sign test. -/
def goldIsNegative (q : ℚ) : Bool := q < 0

def digitChar (n : ℕ) : Char := Char.ofNat ('0'.toNat + n)

/-- Decimal digits of a natural number, most significant first, via explicit
fuel so the definition reduces in the kernel; `n + 1` units of fuel always
suffice. -/
def natDigitsAux : ℕ → ℕ → List Char
  | 0, _ => []
  | fuel + 1, n => if n < 10 then [digitChar n] else natDigitsAux fuel (n / 10) ++ [digitChar (n % 10)]

def natDigits (n : ℕ) : List Char := natDigitsAux (n + 1) n

/-- `padStart(2, '0')` of the silver/copper segments. -/
def pad2 (n : ℕ) : List Char :=
  let ds := natDigits n
  if ds.length < 2 then List.replicate (2 - ds.length) '0' ++ ds else ds

/-- Modelled from the spec: the gold count is rendered with
`Number.prototype.toLocaleString`, whose output the specification pins down as
locale-style thousands grouping; embedded as groups of three digits from the
right, separated by commas.  `groupTail` handles the trailing blocks, whose
total length is a multiple of three. -/
def groupTail : List Char → List Char
  | a :: b :: c :: rest => ',' :: a :: b :: c :: groupTail rest
  | rest => rest

def group3 (ds : List Char) : List Char :=
  let k := (ds.length + 2) % 3 + 1
  ds.take k ++ groupTail (ds.drop k)

/-- `Gold.prototype.toString`:
`` `${negStr}${gold.toLocaleString()}g ${silver padded}s ${copper padded}c` ``. -/
def goldToString (q : ℚ) : List Char :=
  (if goldIsNegative q then ['-'] else []) ++ group3 (natDigits (goldSeg q).toNat) ++
    ['g', ' '] ++ pad2 (silverSeg q).toNat ++ ['s', ' '] ++ pad2 (copperSeg q).toNat ++ ['c']

/-- `Gold.prototype.toBigInt`: truncate the raw copper amount. -/
def goldToBigInt (q : ℚ) : ℤ := ratTrunc q

def MIN_MYSQL_SIGNED_BIGINT : ℤ := -(2 ^ 63)

def MAX_MYSQL_SIGNED_BIGINT : ℤ := 2 ^ 63 - 1

def MIN_MYSQL_UNSIGNED_BIGINT : ℤ := 0

def MAX_MYSQL_UNSIGNED_BIGINT : ℤ := 2 ^ 64 - 1

/-- `Gold.prototype.toMySQLBigInt`: the raw (untruncated) copper amount is
compared against the selected 64-bit domain, and only then truncated. -/
def goldToMySQLBigInt (isUnsigned : Bool) (q : ℚ) : Except GoldError ℤ :=
  let minC : ℤ := if isUnsigned then MIN_MYSQL_UNSIGNED_BIGINT else MIN_MYSQL_SIGNED_BIGINT
  let maxC : ℤ := if isUnsigned then MAX_MYSQL_UNSIGNED_BIGINT else MAX_MYSQL_SIGNED_BIGINT
  if q < (minC : ℚ) then .error .unsafeNumber
  else if (maxC : ℚ) < q then .error .unsafeNumber
  else .ok (goldToBigInt q)

/-! ## Non-finite decimal values and division (for `Gold.div`) -/

/-- A `decimal.js` value: finite, one of the infinities, or NaN. -/
inductive DecimalValue where
  | fin (q : ℚ)
  | posInf
  | negInf
  | nan
deriving Repr, DecidableEq

def DecimalValue.isFinite : DecimalValue → Bool
  | .fin _ => true
  | _ => false

/-- `Decimal.prototype.div`: division by zero yields a signed infinity (NaN
for zero over zero); infinities divide as in IEEE arithmetic. -/
def decDiv : DecimalValue → DecimalValue → DecimalValue
  | .fin a, .fin b =>
    if b = 0 then (if a = 0 then .nan else if 0 < a then .posInf else .negInf)
    else .fin (a / b)
  | .nan, _ => .nan
  | _, .nan => .nan
  | .posInf, .fin b => if b < 0 then .negInf else .posInf
  | .negInf, .fin b => if b < 0 then .posInf else .negInf
  | .fin _, .posInf => .fin 0
  | .fin _, .negInf => .fin 0
  | .posInf, .posInf => .nan
  | .posInf, .negInf => .nan
  | .negInf, .posInf => .nan
  | .negInf, .negInf => .nan

/-- The Decimal branch of `Gold.getCopperFromTotal`, reached by the
constructor for every non-mutating arithmetic result: only finiteness is
checked (a NaN decimal also fails `isFinite` and raises the infinite-value
error). -/
def copperFromDecimal (v : DecimalValue) : Except GoldError DecimalValue :=
  if v.isFinite then .ok v else .error .infiniteValue

/-- `Gold.prototype.div`: with `mutate` the quotient is stored back without
any validation; without it the quotient is passed through the constructor. -/
def goldDiv (raw amount : DecimalValue) (mutate : Bool) : Except GoldError DecimalValue :=
  let r := decDiv raw amount
  if mutate then .ok r else copperFromDecimal r

/-! ## Digit-evaluation helper lemmas -/

@[simp] theorem digVal_0 : digVal '0' = 0 := by decide

@[simp] theorem digVal_1 : digVal '1' = 1 := by decide

@[simp] theorem digVal_2 : digVal '2' = 2 := by decide

@[simp] theorem digVal_3 : digVal '3' = 3 := by decide

@[simp] theorem digVal_4 : digVal '4' = 4 := by decide

@[simp] theorem digVal_5 : digVal '5' = 5 := by decide

@[simp] theorem digVal_6 : digVal '6' = 6 := by decide

@[simp] theorem digVal_7 : digVal '7' = 7 := by decide

@[simp] theorem digVal_8 : digVal '8' = 8 := by decide

@[simp] theorem digVal_9 : digVal '9' = 9 := by decide

/-! ## Scanner lemmas on symbolic inputs -/

theorem takeWhile_append_all {p : Char → Bool} :
    ∀ {xs : List Char}, (∀ c ∈ xs, p c = true) → ∀ {y : Char}, p y = false →
      ∀ r : List Char, (xs ++ y :: r).takeWhile p = xs
  | [], _, y, hy, r => by simp [List.takeWhile_cons, hy]
  | x :: xs, hxs, y, hy, r => by
    have hx : p x = true := hxs x (by simp)
    simp only [List.cons_append, List.takeWhile_cons, hx, if_true]
    rw [takeWhile_append_all (fun c hc => hxs c (by simp [hc])) hy r]

theorem dropWhile_append_all {p : Char → Bool} :
    ∀ {xs : List Char}, (∀ c ∈ xs, p c = true) → ∀ {y : Char}, p y = false →
      ∀ r : List Char, (xs ++ y :: r).dropWhile p = y :: r
  | [], _, y, hy, r => by simp [List.dropWhile_cons, hy]
  | x :: xs, hxs, y, hy, r => by
    have hx : p x = true := hxs x (by simp)
    simp only [List.cons_append, List.dropWhile_cons, hx, if_true]
    exact dropWhile_append_all (fun c hc => hxs c (by simp [hc])) hy r

theorem isDig_not_of_isGoldNote {c : Char} (h : isGoldNote c = true) : isDig c = false := by
  have := h
  unfold isGoldNote at this
  rcases Bool.or_eq_true_iff.mp this with h' | h'
  · rcases Bool.or_eq_true_iff.mp h' with h'' | h''
    · rcases Bool.or_eq_true_iff.mp h'' with h3 | h3 <;>
        simp [beq_iff_eq.mp h3, isDig, Char.isDigit]
    · simp [beq_iff_eq.mp h'', isDig, Char.isDigit]
  · simp [beq_iff_eq.mp h', isDig, Char.isDigit]

theorem neg_not_dig : isDig '-' = false := by decide

theorem dot_not_dig : isDig '.' = false := by decide

/-- `negCapture` leaves an input alone when its head is not a minus sign. -/
theorem negCapture_of_head {c : Char} (hc : c ≠ '-') (r : List Char) :
    negCapture (c :: r) = (false, c :: r) := by
  simp [negCapture, hc]

theorem sepGroups_of_head {sep y : Char} (h : ¬y = sep) (r : List Char) :
    sepGroups sep (y :: r) = ([], y :: r) := by
  have hb : (y == sep) = false := by simp [h]
  rcases r with _ | ⟨a, _ | ⟨b, _ | ⟨c, rest⟩⟩⟩ <;> simp [sepGroups, hb]

/-- On a plain digit run followed by a non-digit, non-separator character the
integer capture takes exactly the digit run (both grouped alternatives fail
for want of a separator). -/
theorem goldIntCapture_plain {I : List Char} (hI : I ≠ []) (hdig : ∀ c ∈ I, isDig c = true)
    {y : Char} (hy : isDig y = false) (hy1 : ¬y = ',') (hy2 : ¬y = '_') (r : List Char) :
    goldIntCapture (I ++ y :: r) = some (I, y :: r) := by
  have htake := takeWhile_append_all hdig hy r
  have hdrop := dropWhile_append_all hdig hy r
  have hlen : I.length ≠ 0 := by simpa using hI
  unfold goldIntCapture sepGroupedInt
  rw [htake, hdrop, sepGroups_of_head hy1 r, sepGroups_of_head hy2 r]
  by_cases h3 : 3 < I.length
  · simp [hlen, h3]
  · simp [hlen, h3]

/-- A dot followed by a digit run and a non-digit remainder captures exactly
that run as the fractional group. -/
theorem fracCapture_dot {F : List Char} (hF : F ≠ []) (hdig : ∀ c ∈ F, isDig c = true)
    {y : Char} (hy : isDig y = false) (r : List Char) :
    fracCapture ('.' :: (F ++ y :: r)) = (some F, y :: r) := by
  have htake := takeWhile_append_all hdig hy r
  have hdrop := dropWhile_append_all hdig hy r
  have hlen : F.length ≠ 0 := by simpa using hF
  simp [fracCapture, htake, hdrop, hlen]

/-- A fractional group never arises on input that does not start with a dot. -/
theorem fracCapture_of_head {c : Char} (hc : ¬c = '.') (r : List Char) :
    fracCapture (c :: r) = (none, c :: r) := by
  simp [fracCapture, hc]

theorem noteCapture_of_note {c : Char} (hc : isGoldNote c = true) (r : List Char) :
    noteCapture (c :: r) = (some c, r) := by
  simp [noteCapture, hc]

theorem noteCapture_of_head {c : Char} (hc : isGoldNote c = false) (r : List Char) :
    noteCapture (c :: r) = (none, c :: r) := by
  simp [noteCapture, hc]

/-- Neither suffix alternative can start on empty remaining input. -/
theorem ggSuffixCapture_nil (rev : List Char) : ggSuffixCapture rev [] = (none, []) := by
  unfold ggSuffixCapture andSuffixCapture orSuffixCapture
  cases h : suffixGate rev <;> simp [h, twoDigitUnit, List.dropWhile]

/-- Digit runs contain no group separators, so separator stripping leaves
them unchanged. -/
theorem stripSeps_digits {I : List Char} (hdig : ∀ c ∈ I, isDig c = true) :
    stripSeps I = I := by
  unfold stripSeps
  rw [List.filter_eq_self]
  intro c hc
  have := hdig c hc
  revert this
  unfold isDig isSep
  intro h
  rcases hcc : (c == ',') with _ | _
  · rcases hcu : (c == '_') with _ | _
    · rfl
    · exfalso
      rw [beq_iff_eq.mp hcu] at h
      simp [Char.isDigit] at h
  · exfalso
    rw [beq_iff_eq.mp hcc] at h
    simp [Char.isDigit] at h

/-- C2 amended: every `INT.FRAC` numeral immediately followed by a notation
letter that GenericGold accepts parses to
`INT × multiplier(N) × 10000 + 0.FRAC × 10000`: the fractional capture is
scaled by `COPPER_PER_GOLD` alone, never by the notation multiplier. -/
theorem c2_amended :
    ∀ (I F : List Char) (n : Char), I ≠ [] → (∀ c ∈ I, isDig c = true) →
      F ≠ [] → (∀ c ∈ F, isDig c = true) → isGoldNote n = true →
      genericGoldParseCopper (I ++ '.' :: (F ++ [n])) =
        some ((natOfDigits I : ℚ) * (goldNoteMult n * COPPER_PER_GOLD) +
          fracOfDigits F * COPPER_PER_GOLD) := by
  intro I F n hI hdigI hF hdigF hn
  obtain ⟨c0, I', rfl⟩ : ∃ c0 I', I = c0 :: I' := by
    rcases I with _ | ⟨c0, I'⟩
    · exact absurd rfl hI
    · exact ⟨c0, I', rfl⟩
  have hc0 : c0 ≠ '-' := by
    intro h
    have := hdigI c0 (by simp)
    rw [h] at this
    rw [neg_not_dig] at this
    exact Bool.noConfusion this
  have e1 : negCapture (c0 :: (I' ++ '.' :: (F ++ [n]))) =
      (false, c0 :: (I' ++ '.' :: (F ++ [n]))) := negCapture_of_head hc0 _
  have e2 : goldIntCapture (c0 :: (I' ++ '.' :: (F ++ [n]))) =
      some (c0 :: I', '.' :: (F ++ [n])) := by
    have := goldIntCapture_plain (I := c0 :: I') (by simp) hdigI dot_not_dig
      (by decide) (by decide) (F ++ [n])
    simpa using this
  have e3 : fracCapture ('.' :: (F ++ [n])) = (some F, [n]) := by
    have := fracCapture_dot hF hdigF (isDig_not_of_isGoldNote hn) ([] : List Char)
    simpa using this
  have e4 : noteCapture [n] = (some n, []) := noteCapture_of_note hn []
  have hmatch : genericGoldMatch (c0 :: (I' ++ '.' :: (F ++ [n]))) =
      some ⟨false, c0 :: I', some F, some n, none⟩ := by
    unfold genericGoldMatch
    simp only [e1, e2, e3, e4, ggSuffixCapture_nil, List.isEmpty_nil, if_true]
  rw [show (c0 :: I') ++ '.' :: (F ++ [n]) = c0 :: (I' ++ '.' :: (F ++ [n])) by simp]
  unfold genericGoldParseCopper
  rw [hmatch]
  simp only [Option.map_some', genericGoldValue, ggSilverCap, ggCopperCap]
  rw [stripSeps_digits hdigI]
  simp [appSign, goldNoteCopperMult, hn]

/-- C2 amended, witnessed at "1.5k" = 10,005,000 copper. -/
theorem c2_amended_witness :
    genericGoldParseCopper ("1.5k".data) =
      some ((natOfDigits ['1'] : ℚ) * (goldNoteMult 'k' * COPPER_PER_GOLD) +
        fracOfDigits ['5'] * COPPER_PER_GOLD) := by
  have h := c2_amended ['1'] ['5'] 'k' (by decide) (by decide) (by decide) (by decide) (by decide)
  simpa using h

/-! ## Structure of successful captures (for the suffix-gating analysis) -/

theorem takeWhile_all {p : Char → Bool} :
    ∀ {l : List Char}, (∀ c ∈ l, p c = true) → l.takeWhile p = l :=
  fun h => List.takeWhile_eq_self_iff.mpr h

theorem dropWhile_all {p : Char → Bool} :
    ∀ {l : List Char}, (∀ c ∈ l, p c = true) → l.dropWhile p = [] := by
  intro l h
  induction l with
  | nil => rfl
  | cons x xs ih =>
    rw [List.dropWhile_cons, if_pos (h x (by simp))]
    exact ih (fun c hc => h c (by simp [hc]))

theorem isGoldNote_cases {c : Char} (h : isGoldNote c = true) :
    c = 'g' ∨ c = 'k' ∨ c = 'm' ∨ c = 'b' := by
  unfold isGoldNote at h
  rcases Bool.or_eq_true_iff.mp h with h' | h'
  · rcases Bool.or_eq_true_iff.mp h' with h'' | h''
    · rcases Bool.or_eq_true_iff.mp h'' with h3 | h3
      · exact Or.inl (beq_iff_eq.mp h3)
      · exact Or.inr (Or.inl (beq_iff_eq.mp h3))
    · exact Or.inr (Or.inr (Or.inl (beq_iff_eq.mp h'')))
  · exact Or.inr (Or.inr (Or.inr (beq_iff_eq.mp h')))

theorem isGoldNote_of_isDig {c : Char} (h : isDig c = true) : isGoldNote c = false := by
  cases hg : isGoldNote c
  · rfl
  · rw [isDig_not_of_isGoldNote hg] at h
    exact Bool.noConfusion h

/-- A successful fractional capture is a non-empty digit run. -/
theorem fracCapture_some {cs f r : List Char} (h : fracCapture cs = (some f, r)) :
    f ≠ [] ∧ ∀ c ∈ f, isDig c = true := by
  rcases cs with _ | ⟨c, rest⟩
  · simp [fracCapture] at h
  · simp only [fracCapture] at h
    by_cases hc : c = '.'
    · rw [if_pos hc] at h
      by_cases hlen : (rest.takeWhile isDig).length = 0
      · rw [if_pos hlen] at h
        simp at h
      · rw [if_neg hlen] at h
        rw [Prod.mk.injEq] at h
        obtain ⟨h1, h2⟩ := h
        have hf : f = rest.takeWhile isDig := (Option.some.inj h1).symm
        subst hf
        exact ⟨fun hnil => hlen (by simp [hnil]), fun c hc => List.mem_takeWhile_imp hc⟩
    · rw [if_neg hc] at h
      simp at h

/-- A non-empty separator-group tail ends in a digit (given reversed, its
head is a digit). -/
theorem sepGroups_rev_head {sep : Char} :
    ∀ (cs : List Char) (gs r : List Char), sepGroups sep cs = (gs, r) → gs ≠ [] →
      ∃ d t, gs.reverse = d :: t ∧ isDig d = true
  | [], gs, r, h, hne => by
    simp only [sepGroups] at h
    exact absurd (congrArg Prod.fst h).symm (by simpa using hne)
  | [s], gs, r, h, hne => by
    simp only [sepGroups] at h
    exact absurd (congrArg Prod.fst h).symm (by simpa using hne)
  | [s, a], gs, r, h, hne => by
    simp only [sepGroups] at h
    exact absurd (congrArg Prod.fst h).symm (by simpa using hne)
  | [s, a, b], gs, r, h, hne => by
    simp only [sepGroups] at h
    exact absurd (congrArg Prod.fst h).symm (by simpa using hne)
  | s :: a :: b :: c :: rest, gs, r, h, hne => by
    rcases hrec : sepGroups sep rest with ⟨g', r'⟩
    by_cases hcond : (s == sep && isDig a && isDig b && isDig c) = true
    · have hd : isDig c = true := by
        have := hcond
        simp only [Bool.and_eq_true] at this
        exact this.2
      simp only [sepGroups, hcond, if_true, hrec] at h
      have hgs : gs = s :: a :: b :: c :: g' := (congrArg Prod.fst h).symm
      subst hgs
      rcases Classical.em (g' = []) with hnil | hnil
      · subst hnil
        exact ⟨c, [b, a, s], by simp, hd⟩
      · obtain ⟨d, t, hrev, hdd⟩ := sepGroups_rev_head rest g' r' hrec hnil
        exact ⟨d, t ++ [c, b, a, s], by simp [hrev], hdd⟩
    · simp only [sepGroups, hcond, if_false] at h
      exact absurd (congrArg Prod.fst h).symm (by simpa using hne)

/-- A successful grouped-integer capture ends in a digit. -/
theorem sepGroupedInt_rev_head {sep : Char} {cs g r : List Char}
    (h : sepGroupedInt sep cs = some (g, r)) :
    ∃ d t, g.reverse = d :: t ∧ isDig d = true := by
  unfold sepGroupedInt at h
  by_cases hguard : ((cs.takeWhile isDig).length = 0 ∨ 3 < (cs.takeWhile isDig).length)
  · rw [if_pos (by simpa using hguard)] at h
    exact absurd h (by simp)
  · rw [if_neg (by simpa using hguard)] at h
    rcases hsg : sepGroups sep (cs.dropWhile isDig) with ⟨gs, r'⟩
    rw [hsg] at h
    rcases gs with _ | ⟨x, gs'⟩
    · exact absurd h (by simp)
    · have hg : g = cs.takeWhile isDig ++ (x :: gs') := by
        have := congrArg (fun o => Option.map Prod.fst o) h
        simpa using this.symm
      obtain ⟨d, t, hrev, hdd⟩ :=
        sepGroups_rev_head (cs.dropWhile isDig) (x :: gs') r' hsg (by simp)
      exact ⟨d, t ++ (cs.takeWhile isDig).reverse, by simp [hg, hrev], hdd⟩

/-- Every successful integer capture ends in a digit. -/
theorem goldIntCapture_rev_head {cs g r : List Char}
    (h : goldIntCapture cs = some (g, r)) :
    ∃ d t, g.reverse = d :: t ∧ isDig d = true := by
  unfold goldIntCapture at h
  rcases h1 : sepGroupedInt ',' cs with _ | v1
  · rw [h1] at h
    rcases h2 : sepGroupedInt '_' cs with _ | v2
    · rw [h2] at h
      by_cases hlen : (cs.takeWhile isDig).length = 0
      · rw [if_pos hlen] at h
        exact absurd h (by simp)
      · rw [if_neg hlen] at h
        have hg : g = cs.takeWhile isDig := by
          have := congrArg (fun o => Option.map Prod.fst o) h
          simpa using this.symm
        subst hg
        rcases hrev : (cs.takeWhile isDig).reverse with _ | ⟨d, t⟩
        · exact absurd (by simpa using congrArg List.length hrev) hlen
        · refine ⟨d, t, rfl, ?_⟩
          have hdmem : d ∈ (cs.takeWhile isDig).reverse := by simp [hrev]
          exact List.mem_takeWhile_imp (List.mem_reverse.mp hdmem)
    · rw [h2] at h
      rcases v2 with ⟨g2, r2⟩
      have : g2 = g ∧ r2 = r := by
        constructor
        · exact congrArg Prod.fst (Option.some.inj h)
        · exact congrArg Prod.snd (Option.some.inj h)
      rcases this with ⟨rfl, rfl⟩
      exact sepGroupedInt_rev_head h2
  · rw [h1] at h
    rcases v1 with ⟨g1, r1⟩
    have : g1 = g ∧ r1 = r := by
      constructor
      · exact congrArg Prod.fst (Option.some.inj h)
      · exact congrArg Prod.snd (Option.some.inj h)
    rcases this with ⟨rfl, rfl⟩
    exact sepGroupedInt_rev_head h1

/-- Both suffix alternatives are reachable only through the lookbehind. -/
theorem ggSuffixCapture_some_gate {rev cs : List Char} {s : GGSuffix} {r : List Char}
    (h : ggSuffixCapture rev cs = (some s, r)) : suffixGate rev = true := by
  cases hg : suffixGate rev
  · unfold ggSuffixCapture andSuffixCapture orSuffixCapture at h
    rw [hg] at h
    simp at h
  · rfl

/-- Matched text ending in a fractional group satisfies the inner `[.]\d+`
lookbehind pattern. -/
theorem endsDotDigits_frac {f : List Char} (hf : f ≠ []) (hdig : ∀ c ∈ f, isDig c = true)
    (rest : List Char) : endsDotDigits (f.reverse ++ '.' :: rest) = true := by
  have hrevdig : ∀ c ∈ f.reverse, isDig c = true := fun c hc =>
    hdig c (List.mem_reverse.mp hc)
  unfold endsDotDigits
  rw [takeWhile_append_all hrevdig dot_not_dig rest,
    dropWhile_append_all hrevdig dot_not_dig rest]
  simp [hf]

/-- Digit-only matched text never satisfies the suffix lookbehind (its most
recent character is a digit, not a notation letter). -/
theorem suffixGate_digit_head {d : Char} (hd : isDig d = true) (t : List Char) :
    suffixGate (d :: t) = false := by
  simp only [suffixGate, isGoldNote_of_isDig hd, Bool.false_and]

theorem isGoldNote_ne_comma {c : Char} (h : isGoldNote c = true) : ¬c = ',' := by
  rcases isGoldNote_cases h with rfl | rfl | rfl | rfl <;> decide

theorem isGoldNote_ne_underscore {c : Char} (h : isGoldNote c = true) : ¬c = '_' := by
  rcases isGoldNote_cases h with rfl | rfl | rfl | rfl <;> decide

theorem isGoldNote_ne_dot {c : Char} (h : isGoldNote c = true) : ¬c = '.' := by
  rcases isGoldNote_cases h with rfl | rfl | rfl | rfl <;> decide

theorem isDig_beq_false {c y : Char} (hc : isDig c = true) (hy : isDig y = false) :
    (c == y) = false := by
  refine beq_eq_false_iff_ne.mpr fun h => ?_
  rw [h] at hc
  rw [hc] at hy
  exact Bool.noConfusion hy

theorem rev_head_digit {f : List Char} (hf : f ≠ []) (hdig : ∀ c ∈ f, isDig c = true) :
    ∃ d t, f.reverse = d :: t ∧ isDig d = true := by
  rcases hrev : f.reverse with _ | ⟨d, t⟩
  · exact absurd (List.reverse_eq_nil_iff.mp hrev) hf
  · refine ⟨d, t, rfl, hdig d (List.mem_reverse.mp (by simp [hrev]))⟩

/-- Digit-only matched text does not end with a fractional group. -/
theorem endsDotDigits_all_digits {l : List Char} (h : ∀ c ∈ l, isDig c = true) :
    endsDotDigits l = false := by
  unfold endsDotDigits
  rw [dropWhile_all h]
  simp

/-- Inversion of a successful GenericGold match into its capture steps. -/
theorem genericGoldMatch_inv {cs : List Char} {m : GGCap}
    (h : genericGoldMatch cs = some m) :
    ∃ r0 r1 r2 r3,
      negCapture cs = (m.neg, r0) ∧
      goldIntCapture r0 = some (m.gold, r1) ∧
      fracCapture r1 = (m.frac, r2) ∧
      noteCapture r2 = (m.gnote, r3) ∧
      ggSuffixCapture (ggRev m.neg m.gold m.frac m.gnote) r3 = (m.sfx, []) := by
  unfold genericGoldMatch at h
  rcases hneg : negCapture cs with ⟨nb, r0⟩
  rw [hneg] at h
  dsimp only at h
  rcases hint : goldIntCapture r0 with _ | ⟨g, r1⟩
  · rw [hint] at h
    exact absurd h (by simp)
  · rw [hint] at h
    dsimp only at h
    rcases hfr : fracCapture r1 with ⟨fr, r2⟩
    rw [hfr] at h
    dsimp only at h
    rcases hnt : noteCapture r2 with ⟨nt, r3⟩
    rw [hnt] at h
    dsimp only at h
    rcases hsfx : ggSuffixCapture (ggRev nb g fr nt) r3 with ⟨sfx, r4⟩
    rw [hsfx] at h
    dsimp only at h
    by_cases hr4 : r4.isEmpty
    · rw [if_pos hr4] at h
      have hm : m = ⟨nb, g, fr, nt, sfx⟩ := (Option.some.inj h).symm
      subst hm
      have hr4' : r4 = [] := List.isEmpty_iff.mp hr4
      subst hr4'
      refine ⟨r0, r1, r2, r3, ?_, ?_, ?_, ?_, ?_⟩ <;> dsimp only
      all_goals first | rfl | exact hint | exact hfr | exact hnt | exact hsfx
    · rw [if_neg hr4] at h
      exact absurd h (by simp)

/-- C3: in GenericGold a silver/copper suffix is accepted exactly behind a
notation letter not preceded by a fractional part.  Every successful match
carrying a suffix has a notation capture and no fractional capture; an
integral gold amount with a notation letter admits a suffix; and the spec's
concrete scenario "123.123g 1c" yields no match and no parsed value. -/
theorem c3_suffix_gating :
    (∀ cs m, genericGoldMatch cs = some m → m.sfx ≠ none →
      m.gnote.isSome = true ∧ m.frac = none) ∧
    (∀ (I ds : List Char) (n : Char), (∀ c ∈ I, isDig c = true) → I ≠ [] →
      isGoldNote n = true → (∀ c ∈ ds, isDig c = true) →
      (ds.length = 1 ∨ ds.length = 2) →
      genericGoldMatch (I ++ n :: ' ' :: (ds ++ ['c'])) =
        some ⟨false, I, none, some n, some (.orC ds)⟩) ∧
    genericGoldParseCopper ("123.123g 1c".data) = none := by
  refine ⟨?_, ?_, by decide⟩
  · intro cs m h hsfx
    obtain ⟨r0, r1, r2, r3, hneg, hint, hfr, hnt, hsfxc⟩ := genericGoldMatch_inv h
    rcases hms : m.sfx with _ | s
    · exact absurd hms hsfx
    · rw [hms] at hsfxc
      have hgate : suffixGate (ggRev m.neg m.gold m.frac m.gnote) = true :=
        ggSuffixCapture_some_gate hsfxc
      have hnote : m.gnote.isSome = true := by
        rcases hmn : m.gnote with _ | nc
        · exfalso
          rcases hmf : m.frac with _ | f
          · obtain ⟨d, t, hrev, hd⟩ := goldIntCapture_rev_head hint
            rw [hmn, hmf] at hgate
            simp only [ggRev, List.nil_append] at hgate
            rw [hrev] at hgate
            simp only [List.cons_append] at hgate
            rw [suffixGate_digit_head hd] at hgate
            exact Bool.noConfusion hgate
          · rw [hmf] at hfr
            obtain ⟨hfne, hfdig⟩ := fracCapture_some hfr
            obtain ⟨d, t, hrev, hd⟩ := rev_head_digit hfne hfdig
            rw [hmn, hmf] at hgate
            simp only [ggRev, List.nil_append] at hgate
            rw [hrev] at hgate
            simp only [List.cons_append, List.append_assoc] at hgate
            rw [suffixGate_digit_head hd] at hgate
            exact Bool.noConfusion hgate
        · rfl
      refine ⟨hnote, ?_⟩
      rcases hmf : m.frac with _ | f
      · rfl
      · exfalso
        rcases hmn : m.gnote with _ | nc
        · rw [hmn] at hnote
          exact Bool.noConfusion hnote
        · rw [hmf] at hfr
          obtain ⟨hfne, hfdig⟩ := fracCapture_some hfr
          rw [hmn, hmf] at hgate
          simp only [ggRev, List.append_assoc, List.singleton_append,
            List.cons_append, List.nil_append] at hgate
          simp only [suffixGate] at hgate
          rw [endsDotDigits_frac hfne hfdig] at hgate
          simp at hgate
  · intro I ds n hIdig hIne hn hdsdig hdslen
    obtain ⟨c0, I', rfl⟩ : ∃ c0 I', I = c0 :: I' := by
      rcases I with _ | ⟨c0, I'⟩
      · exact absurd rfl hIne
      · exact ⟨c0, I', rfl⟩
    have hc0 : c0 ≠ '-' := by
      intro hcc
      have := hIdig c0 (by simp)
      rw [hcc, neg_not_dig] at this
      exact Bool.noConfusion this
    have hnd : isDig n = false := isDig_not_of_isGoldNote hn
    have e1 : negCapture (c0 :: (I' ++ n :: ' ' :: (ds ++ ['c']))) =
        (false, c0 :: (I' ++ n :: ' ' :: (ds ++ ['c']))) := negCapture_of_head hc0 _
    have e2 : goldIntCapture (c0 :: (I' ++ n :: ' ' :: (ds ++ ['c']))) =
        some (c0 :: I', n :: ' ' :: (ds ++ ['c'])) := by
      have := goldIntCapture_plain (I := c0 :: I') (by simp) hIdig hnd
        (isGoldNote_ne_comma hn) (isGoldNote_ne_underscore hn) (' ' :: (ds ++ ['c']))
      simpa using this
    have e3 : fracCapture (n :: ' ' :: (ds ++ ['c'])) =
        (none, n :: ' ' :: (ds ++ ['c'])) := fracCapture_of_head (isGoldNote_ne_dot hn) _
    have e4 : noteCapture (n :: ' ' :: (ds ++ ['c'])) =
        (some n, ' ' :: (ds ++ ['c'])) := noteCapture_of_note hn _
    have hrevdig : ∀ c ∈ (c0 :: I').reverse, isDig c = true := fun c hc =>
      hIdig c (List.mem_reverse.mp hc)
    have hggrev : ggRev false (c0 :: I') none (some n) = n :: (c0 :: I').reverse := by
      simp [ggRev]
    have hgate : suffixGate (ggRev false (c0 :: I') none (some n)) = true := by
      rw [hggrev]
      simp only [suffixGate]
      rw [endsDotDigits_all_digits hrevdig, hn]
      rfl
    have e5 : ggSuffixCapture (ggRev false (c0 :: I') none (some n))
        (' ' :: (ds ++ ['c'])) = (some (.orC ds), []) := by
      have hdrop : (' ' :: (ds ++ ['c'])).dropWhile (· == ' ') = ds ++ ['c'] := by
        rcases hdslen with h1 | h1
        · obtain ⟨d, rfl⟩ : ∃ d, ds = [d] := by
            rcases ds with _ | ⟨d, _ | _⟩ <;> simp_all
          have hd := hdsdig d (by simp)
          simp [List.dropWhile, isDig_beq_false (y := ' ') hd (by decide)]
        · obtain ⟨d1, d2, rfl⟩ : ∃ d1 d2, ds = [d1, d2] := by
            rcases ds with _ | ⟨d1, _ | ⟨d2, _ | _⟩⟩ <;> simp_all
          have hd1 := hdsdig d1 (by simp)
          simp [List.dropWhile, isDig_beq_false (y := ' ') hd1 (by decide)]
      rcases hdslen with h1 | h1
      · obtain ⟨d, rfl⟩ : ∃ d, ds = [d] := by
          rcases ds with _ | ⟨d, _ | _⟩ <;> simp_all
        have hd := hdsdig d (by simp)
        have t1 : twoDigitUnit false 's' [d, 'c'] = none := by
          simp [twoDigitUnit, charEqCI, hd]
        have t2 : twoDigitUnit false 'c' [d, 'c'] = some ([d], []) := by
          simp [twoDigitUnit, charEqCI, hd]
        simp [ggSuffixCapture, andSuffixCapture, orSuffixCapture, hgate, hdrop, t1, t2,
          isDig_beq_false (y := ' ') hd (by decide)]
      · obtain ⟨d1, d2, rfl⟩ : ∃ d1 d2, ds = [d1, d2] := by
          rcases ds with _ | ⟨d1, _ | ⟨d2, _ | _⟩⟩ <;> simp_all
        have hd1 := hdsdig d1 (by simp)
        have hd2 := hdsdig d2 (by simp)
        have t1 : twoDigitUnit false 's' [d1, d2, 'c'] = none := by
          simp [twoDigitUnit, charEqCI, hd1, hd2, isDig_beq_false (y := 's') hd2 (by decide)]
        have t2 : twoDigitUnit false 'c' [d1, d2, 'c'] = some ([d1, d2], []) := by
          simp [twoDigitUnit, charEqCI, hd1, hd2]
        simp [ggSuffixCapture, andSuffixCapture, orSuffixCapture, hgate, hdrop, t1, t2,
          isDig_beq_false (y := ' ') hd1 (by decide)]
    rw [show (c0 :: I') ++ n :: ' ' :: (ds ++ ['c']) =
        c0 :: (I' ++ n :: ' ' :: (ds ++ ['c'])) by simp]
    unfold genericGoldMatch
    simp only [e1, e2, e3, e4, e5, List.isEmpty_nil, if_true]

/-- C3 witnessed at "1g 2c": an integral gold amount with notation admits a
copper suffix. -/
theorem c3_suffix_gating_witness :
    genericGoldMatch ("1g 2c".data) =
      some ⟨false, ['1'], none, some 'g', some (.orC ['2'])⟩ := by
  have h := c3_suffix_gating.2.1 ['1'] ['2'] 'g' (by decide) (by decide) (by decide)
    (by decide) (by decide)
  simpa using h

/-! ## Decimal rendering and its round trip -/

theorem toLower_of_isDig {c : Char} (h : isDig c = true) : c.toLower = c := by
  unfold Char.toLower
  simp only []
  rw [if_neg]
  unfold isDig Char.isDigit at h
  simp only [Bool.and_eq_true, decide_eq_true_eq] at h
  have h2' : c.val.toNat ≤ (57 : UInt32).toNat := h.2
  have hn : c.toNat ≤ 57 := by simpa using h2'
  unfold Char.toNat at hn ⊢
  omega

theorem charEqCI_digit {c x : Char} (hc : isDig c = true) (hx : isDig x = false) :
    charEqCI true c x = false := by
  unfold charEqCI
  rw [if_pos rfl, toLower_of_isDig hc]
  exact isDig_beq_false hc hx

theorem digitChar_isDig {k : ℕ} (h : k ≤ 9) : isDig (digitChar k) = true := by
  interval_cases k <;> decide

theorem digVal_digitChar {k : ℕ} (h : k ≤ 9) : digVal (digitChar k) = k := by
  interval_cases k <;> decide

theorem natDigitsAux_congr :
    ∀ (n f₁ f₂ : ℕ), n < f₁ → n < f₂ → natDigitsAux f₁ n = natDigitsAux f₂ n := by
  intro n
  induction n using Nat.strong_induction_on with
  | _ n ih =>
    intro f₁ f₂ h1 h2
    obtain ⟨g₁, rfl⟩ : ∃ g₁, f₁ = g₁ + 1 := ⟨f₁ - 1, by omega⟩
    obtain ⟨g₂, rfl⟩ : ∃ g₂, f₂ = g₂ + 1 := ⟨f₂ - 1, by omega⟩
    by_cases h10 : n < 10
    · simp [natDigitsAux, h10]
    · have hd : n / 10 < n := Nat.div_lt_self (by omega) (by omega)
      simp only [natDigitsAux, h10, if_false]
      rw [ih (n / 10) hd g₁ g₂ (by omega) (by omega)]

theorem natDigits_lt10 {n : ℕ} (h : n < 10) : natDigits n = [digitChar n] := by
  simp [natDigits, natDigitsAux, h]

theorem natDigits_ge10 {n : ℕ} (h : 10 ≤ n) :
    natDigits n = natDigits (n / 10) ++ [digitChar (n % 10)] := by
  have hd : n / 10 < n := Nat.div_lt_self (by omega) (by omega)
  have step : natDigitsAux (n + 1) n = natDigitsAux n (n / 10) ++ [digitChar (n % 10)] := by
    simp only [natDigitsAux, show ¬n < 10 by omega, if_false]
  unfold natDigits
  rw [step, natDigitsAux_congr (n / 10) n (n / 10 + 1) (by omega) (by omega)]

theorem natDigits_ne_nil (n : ℕ) : natDigits n ≠ [] := by
  by_cases h : n < 10
  · simp [natDigits_lt10 h]
  · rw [natDigits_ge10 (by omega)]
    simp

theorem natDigits_digits (n : ℕ) : ∀ c ∈ natDigits n, isDig c = true := by
  induction n using Nat.strong_induction_on with
  | _ n ih =>
    by_cases h : n < 10
    · rw [natDigits_lt10 h]
      intro c hc
      rw [List.mem_singleton.mp hc]
      exact digitChar_isDig (by omega)
    · rw [natDigits_ge10 (by omega)]
      intro c hc
      rcases List.mem_append.mp hc with hc | hc
      · exact ih (n / 10) (Nat.div_lt_self (by omega) (by omega)) c hc
      · rw [List.mem_singleton.mp hc]
        exact digitChar_isDig (show n % 10 ≤ 9 by omega)

theorem natOfDigits_append_single (a : List Char) (d : Char) :
    natOfDigits (a ++ [d]) = 10 * natOfDigits a + digVal d := by
  simp [natOfDigits, List.foldl_append]

theorem natOfDigits_natDigits (n : ℕ) : natOfDigits (natDigits n) = n := by
  induction n using Nat.strong_induction_on with
  | _ n ih =>
    by_cases h : n < 10
    · rw [natDigits_lt10 h]
      simp [natOfDigits, digVal_digitChar (by omega : n ≤ 9)]
    · rw [natDigits_ge10 (by omega), natOfDigits_append_single,
        ih (n / 10) (Nat.div_lt_self (by omega) (by omega)),
        digVal_digitChar (show n % 10 ≤ 9 by omega)]
      omega

/-! ## Thousands grouping and its interaction with the integer capture -/

theorem groupTail_chars :
    ∀ (l : List Char), (∀ c ∈ l, isDig c = true) →
      ∀ c ∈ groupTail l, isDig c = true ∨ c = ','
  | [], _, c, hc => by simp [groupTail] at hc
  | [a], h, c, hc => by
    simp only [groupTail] at hc
    exact Or.inl (h c hc)
  | [a, b], h, c, hc => by
    simp only [groupTail] at hc
    exact Or.inl (h c hc)
  | a :: b :: d :: rest, h, c, hc => by
    simp only [groupTail, List.mem_cons] at hc
    rcases hc with rfl | rfl | rfl | rfl | hc
    · exact Or.inr rfl
    · exact Or.inl (h c (by simp))
    · exact Or.inl (h c (by simp))
    · exact Or.inl (h c (by simp))
    · rcases groupTail_chars rest (fun x hx => h x (by simp [hx])) c hc with h' | h'
      · exact Or.inl h'
      · exact Or.inr h'

theorem group3_chars {ds : List Char} (h : ∀ c ∈ ds, isDig c = true) :
    ∀ c ∈ group3 ds, isDig c = true ∨ c = ',' := by
  intro c hc
  unfold group3 at hc
  rcases List.mem_append.mp hc with hc | hc
  · exact Or.inl (h c (List.mem_of_mem_take hc))
  · exact groupTail_chars _ (fun x hx => h x (List.mem_of_mem_drop hx)) c hc

theorem group3_eq_of_short {ds : List Char} (h : ds.length ≤ 3) : group3 ds = ds := by
  simp only [group3]
  have hk : (ds.length + 2) % 3 + 1 = ds.length ∨ ds.length = 0 := by omega
  rcases hk with hk | hk
  · rw [hk, List.take_length, List.drop_length]
    simp [groupTail]
  · rcases List.length_eq_zero.mp hk with rfl
    simp [groupTail]

theorem sepGroups_groupTail :
    ∀ (l : List Char), (∀ c ∈ l, isDig c = true) → l.length % 3 = 0 →
      ∀ {y : Char} (r : List Char), ¬y = ',' →
        sepGroups ',' (groupTail l ++ y :: r) = (groupTail l, y :: r)
  | [], _, _, y, r, hy => by
    simp only [groupTail, List.nil_append]
    exact sepGroups_of_head hy r
  | [a], _, hlen, y, r, hy => by simp at hlen
  | [a, b], _, hlen, y, r, hy => by simp at hlen
  | a :: b :: d :: rest, h, hlen, y, r, hy => by
    have ha := h a (by simp)
    have hb := h b (by simp)
    have hd := h d (by simp)
    have hcond : ((',' == ',') && isDig a && isDig b && isDig d) = true := by
      simp [ha, hb, hd]
    have hrest : rest.length % 3 = 0 := by
      have := hlen
      simp only [List.length_cons] at this
      omega
    simp only [groupTail, List.cons_append]
    simp only [sepGroups, hcond, if_true]
    rw [sepGroups_groupTail rest (fun x hx => h x (by simp [hx])) hrest r hy]

/-- The integer capture takes an entire comma-grouped rendering followed by a
non-digit, non-separator character. -/
theorem goldIntCapture_group3 {ds : List Char} (hne : ds ≠ [])
    (hdig : ∀ c ∈ ds, isDig c = true) {y : Char} (hy : isDig y = false)
    (hy1 : ¬y = ',') (hy2 : ¬y = '_') (r : List Char) :
    goldIntCapture (group3 ds ++ y :: r) = some (group3 ds, y :: r) := by
  by_cases hlen : ds.length ≤ 3
  · rw [group3_eq_of_short hlen]
    exact goldIntCapture_plain hne hdig hy hy1 hy2 r
  · have hkle : (ds.length + 2) % 3 + 1 ≤ ds.length := by omega
    have hdmod : (ds.drop ((ds.length + 2) % 3 + 1)).length % 3 = 0 := by
      rw [List.length_drop]
      omega
    obtain ⟨Z, hgt⟩ : ∃ Z, groupTail (ds.drop ((ds.length + 2) % 3 + 1)) = ',' :: Z := by
      rcases hq : ds.drop ((ds.length + 2) % 3 + 1) with _ | ⟨e, _ | ⟨t1, _ | ⟨t2, t3⟩⟩⟩
      · exfalso
        have hl := congrArg List.length hq
        rw [List.length_drop] at hl
        simp at hl
        omega
      · exfalso
        have hl := hdmod
        rw [hq] at hl
        simp at hl
      · exfalso
        have hl := hdmod
        rw [hq] at hl
        simp at hl
      · exact ⟨e :: t1 :: t2 :: groupTail t3, by simp [groupTail]⟩
    have htakedig : ∀ c ∈ ds.take ((ds.length + 2) % 3 + 1), isDig c = true :=
      fun c hc => hdig c (List.mem_of_mem_take hc)
    have htail : ∀ c ∈ ds.drop ((ds.length + 2) % 3 + 1), isDig c = true :=
      fun c hc => hdig c (List.mem_of_mem_drop hc)
    have hcomma : isDig ',' = false := by decide
    have hshape : group3 ds ++ y :: r =
        ds.take ((ds.length + 2) % 3 + 1) ++ ',' :: (Z ++ y :: r) := by
      simp only [group3, hgt, List.append_assoc, List.cons_append]
    have htake : (group3 ds ++ y :: r).takeWhile isDig =
        ds.take ((ds.length + 2) % 3 + 1) := by
      rw [hshape]
      exact takeWhile_append_all htakedig hcomma _
    have hdrop : (group3 ds ++ y :: r).dropWhile isDig = ',' :: (Z ++ y :: r) := by
      rw [hshape]
      exact dropWhile_append_all htakedig hcomma _
    have hdrop' : (group3 ds ++ y :: r).dropWhile isDig =
        groupTail (ds.drop ((ds.length + 2) % 3 + 1)) ++ y :: r := by
      rw [hdrop, hgt]
      simp
    have hsg : sepGroups ',' (groupTail (ds.drop ((ds.length + 2) % 3 + 1)) ++ y :: r) =
        (groupTail (ds.drop ((ds.length + 2) % 3 + 1)), y :: r) :=
      sepGroups_groupTail _ htail hdmod r hy1
    have hlen' : (ds.take ((ds.length + 2) % 3 + 1)).length = (ds.length + 2) % 3 + 1 := by
      rw [List.length_take]
      omega
    have hsep : sepGroupedInt ',' (group3 ds ++ y :: r) = some (group3 ds, y :: r) := by
      simp only [sepGroupedInt]
      rw [htake, hdrop', hsg, hlen']
      have hguard : ¬((ds.length + 2) % 3 + 1 = 0 ∨ 3 < (ds.length + 2) % 3 + 1) := by omega
      rw [if_neg (by simpa using hguard)]
      rw [hgt]
      simp only [group3, hgt]
    unfold goldIntCapture
    rw [hsep]

theorem isSep_of_isDig {c : Char} (h : isDig c = true) : isSep c = false := by
  unfold isSep
  rw [isDig_beq_false h (by decide), isDig_beq_false h (by decide)]
  rfl

theorem stripSeps_groupTail :
    ∀ (l : List Char), (∀ c ∈ l, isDig c = true) → l.length % 3 = 0 →
      stripSeps (groupTail l) = l
  | [], _, _ => by simp [groupTail, stripSeps]
  | [a], _, hlen => by simp at hlen
  | [a, b], _, hlen => by simp at hlen
  | a :: b :: d :: rest, h, hlen => by
    have hrest : rest.length % 3 = 0 := by
      simp only [List.length_cons] at hlen
      omega
    have ih := stripSeps_groupTail rest (fun c hc => h c (by simp [hc])) hrest
    simp only [groupTail, stripSeps, List.filter_cons] at ih ⊢
    rw [isSep_of_isDig (h a (by simp)), isSep_of_isDig (h b (by simp)),
      isSep_of_isDig (h d (by simp))]
    simp only [show isSep ',' = true from rfl]
    simp only [Bool.not_true, Bool.not_false, if_true, if_false]
    rw [ih]
    simp

theorem stripSeps_group3 {ds : List Char} (hdig : ∀ c ∈ ds, isDig c = true) :
    stripSeps (group3 ds) = ds := by
  simp only [group3]
  unfold stripSeps
  rw [List.filter_append]
  have h1 : List.filter (fun c => !isSep c) (ds.take ((ds.length + 2) % 3 + 1)) =
      ds.take ((ds.length + 2) % 3 + 1) := by
    rw [List.filter_eq_self]
    intro c hc
    rw [isSep_of_isDig (hdig c (List.mem_of_mem_take hc))]
    rfl
  by_cases hlen : ds.length ≤ 3
  · have hk : (ds.length + 2) % 3 + 1 = ds.length ∨ ds.length = 0 := by omega
    rcases hk with hk | hk
    · rw [hk, List.take_length, List.drop_length]
      simp only [groupTail, List.filter_nil, List.append_nil]
      rw [List.filter_eq_self]
      intro a ha
      rw [isSep_of_isDig (hdig a ha)]
      rfl
    · rcases List.length_eq_zero.mp hk with rfl
      simp [groupTail]
  · have hdmod : (ds.drop ((ds.length + 2) % 3 + 1)).length % 3 = 0 := by
      rw [List.length_drop]
      omega
    have h2 := stripSeps_groupTail (ds.drop ((ds.length + 2) % 3 + 1))
      (fun c hc => hdig c (List.mem_of_mem_drop hc)) hdmod
    unfold stripSeps at h2
    rw [h1, h2, List.take_append_drop]

/-- For a two-digit-capable value the zero padding produces exactly two
digits. -/
theorem pad2_two {n : ℕ} (h : n ≤ 99) :
    ∃ d1 d2, pad2 n = [d1, d2] ∧ isDig d1 = true ∧ isDig d2 = true := by
  by_cases h10 : n < 10
  · refine ⟨'0', digitChar n, ?_, by decide, digitChar_isDig (by omega)⟩
    simp [pad2, natDigits_lt10 h10]
  · refine ⟨digitChar (n / 10), digitChar (n % 10), ?_,
      digitChar_isDig (by omega), digitChar_isDig (by omega)⟩
    have hns : natDigits n = [digitChar (n / 10), digitChar (n % 10)] := by
      rw [natDigits_ge10 (by omega), natDigits_lt10 (by omega)]
      rfl
    simp [pad2, hns]

theorem natOfDigits_pad2 {n : ℕ} (h : n ≤ 99) : natOfDigits (pad2 n) = n := by
  by_cases h10 : n < 10
  · rw [show pad2 n = ['0', digitChar n] by simp [pad2, natDigits_lt10 h10]]
    simp [natOfDigits, digVal_digitChar (by omega : n ≤ 9)]
  · have hns : natDigits n = [digitChar (n / 10), digitChar (n % 10)] := by
      rw [natDigits_ge10 (by omega), natDigits_lt10 (by omega)]
      rfl
    rw [show pad2 n = [digitChar (n / 10), digitChar (n % 10)] by simp [pad2, hns]]
    simp [natOfDigits, digVal_digitChar (show n / 10 ≤ 9 by omega),
      digVal_digitChar (show n % 10 ≤ 9 by omega)]
    omega

/-- If the matched text contains no dot at all, the `[.]\d+` lookbehind
fails. -/
theorem endsDotDigits_no_dot {l : List Char} (h : ('.' : Char) ∉ l) :
    endsDotDigits l = false := by
  unfold endsDotDigits
  rcases hd : (l.dropWhile isDig).head? with _ | c
  · simp [hd]
  · have hc : c ∈ l := (List.dropWhile_sublist isDig (l := l)).mem (List.mem_of_mem_head? hd)
    have hne : ¬c = '.' := fun hq => h (hq ▸ hc)
    simp [hd, hne]

/-- A `\d{1,2}` capture with a fixed unit letter fails whenever neither the
second nor the third input character can be that letter. -/
theorem twoDigitUnit_none2 {ci : Bool} {letter : Char} :
    ∀ {l : List Char}, (∀ c ∈ (l.tail.take 2), charEqCI ci c letter = false) →
      twoDigitUnit ci letter l = none := by
  intro l h
  rcases l with _ | ⟨d1, _ | ⟨d2, _ | ⟨c3, rest⟩⟩⟩
  · rfl
  · rfl
  · have h2 := h d2 (by simp)
    simp [twoDigitUnit, h2]
  · have h2 := h d2 (by simp)
    have h3 := h c3 (by simp)
    simp [twoDigitUnit, h2, h3]

/-! ## Claim theorems -/

/-- C1: the leading minus is not applied uniformly.  Under SilverOrCopper,
"34c" parses to 34 but "-34c" also parses to +34 (the sign is prefixed to the
silver term only, which is zero here); under SilverAndCopper, "12s 34c"
parses to 1234 but "-12s 34c" parses to -1166 = -1200 + 34 rather than the
claimed -1234. -/
theorem c1_sign_not_uniform_eval :
    silverOrCopperParseCopper ("34c".data) = some 34 ∧
    silverOrCopperParseCopper ("-34c".data) = some 34 ∧
    silverAndCopperParseCopper ("12s 34c".data) = some 1234 ∧
    silverAndCopperParseCopper ("-12s 34c".data) = some (-1166) := by
  have h1 : silverOrCopperMatch "34c".data = some ⟨false, none, some ['3', '4']⟩ := by decide
  have h2 : silverOrCopperMatch "-34c".data = some ⟨true, none, some ['3', '4']⟩ := by decide
  have h3 : silverAndCopperMatch "12s 34c".data = some ⟨false, ['1', '2'], ['3', '4']⟩ := by
    decide
  have h4 : silverAndCopperMatch "-12s 34c".data = some ⟨true, ['1', '2'], ['3', '4']⟩ := by
    decide
  refine ⟨?_, ?_, ?_, ?_⟩ <;>
    simp [silverOrCopperParseCopper, silverAndCopperParseCopper, h1, h2, h3, h4,
      silverOrCopperValue, silverAndCopperValue, natOfDigits, appSign, COPPER_PER_SILVER] <;>
    norm_num

/-- C2 counterexample: "1.5k" parses under GenericGold to
1 × 1000 × 10000 + 0.5 × 10000 = 10,005,000 copper, not the claimed
(1 + 0.5) × 1000 × 10000 = 15,000,000. -/
theorem c2_counterexample :
    genericGoldParseCopper ("1.5k".data) = some 10005000 ∧
    (10005000 : ℚ) ≠ (1 + 5 / 10) * 1000 * 10000 := by
  constructor
  · have h : genericGoldMatch "1.5k".data = some ⟨false, ['1'], some ['5'], some 'k', none⟩ := by
      decide
    simp [genericGoldParseCopper, h, genericGoldValue, ggSilverCap, ggCopperCap, natOfDigits,
      fracOfDigits, appSign, stripSeps, isSep, goldNoteCopperMult, goldNoteMult, isGoldNote,
      COPPER_PER_GOLD]
    norm_num
  · norm_num

/-- C5 counterexample: a non-matching input makes `Gold.parse` throw the
invalid-gold-expression error class, not a distinct malformed-expression
class. -/
theorem c5_counterexample :
    goldParse (some ("abc".data)) false = .error .invalidGoldExpressionNoMatch ∧
    GoldError.toClass .invalidGoldExpressionNoMatch = .invalidGoldExpression ∧
    GoldErrorClass.invalidGoldExpression ≠ GoldErrorClass.malformedGoldExpression := by
  have h : firstSome defaultParsers (trim "abc".data) = none := by decide
  refine ⟨?_, rfl, by decide⟩
  simp [goldParse, h]

/-- C5 amended: `Gold.parse` rejects null input and non-matching input with
two differently constructed errors of the same invalid-gold-expression error
class; the malformed-expression class is never raised. -/
theorem c5_amended :
    goldParse none false = .error .invalidGoldExpressionNull ∧
    (∀ cs, firstSome defaultParsers (trim cs) = none →
      goldParse (some cs) false = .error .invalidGoldExpressionNoMatch) ∧
    GoldError.toClass .invalidGoldExpressionNull =
      GoldError.toClass .invalidGoldExpressionNoMatch := by
  refine ⟨rfl, ?_, rfl⟩
  intro cs h
  simp [goldParse, h]

/-- C5 amended, witnessed at the concrete non-matching input "abc". -/
theorem c5_amended_witness :
    goldParse (some ("abc".data)) false = .error .invalidGoldExpressionNoMatch :=
  c5_amended.2.1 ("abc".data) (by decide)

/-- C6 counterexample: at raw copper −1/2 in the unsigned domain the
conversion raises the unsafe-number error although the truncated amount, 0,
lies inside the domain: the range check is on the raw value. -/
theorem c6_counterexample :
    goldToMySQLBigInt true (-(1 : ℚ) / 2) = .error .unsafeNumber ∧
    ¬(goldToBigInt (-(1 : ℚ) / 2) < MIN_MYSQL_UNSIGNED_BIGINT ∨
      MAX_MYSQL_UNSIGNED_BIGINT < goldToBigInt (-(1 : ℚ) / 2)) := by
  have htr : goldToBigInt (-(1 : ℚ) / 2) = 0 := by
    unfold goldToBigInt ratTrunc
    rw [if_pos (by norm_num)]
    rw [show (-(1 : ℚ) / 2) = -(1 / 2) by ring, Int.ceil_neg, neg_eq_zero]
    rw [Int.floor_eq_zero_iff]
    constructor <;> norm_num
  constructor
  · unfold goldToMySQLBigInt
    rw [if_pos]
    norm_num [MIN_MYSQL_UNSIGNED_BIGINT]
  · rw [htr]
    norm_num [MIN_MYSQL_UNSIGNED_BIGINT, MAX_MYSQL_UNSIGNED_BIGINT]

/-- C6 amended: `toMySQLBigInt` raises the unsafe-number error exactly when
the raw (untruncated) copper amount lies outside the selected 64-bit domain,
and otherwise returns the truncated value. -/
theorem c6_amended :
    ∀ (q : ℚ) (isUnsigned : Bool),
      (goldToMySQLBigInt isUnsigned q = .error .unsafeNumber ↔
        (q < ((if isUnsigned then MIN_MYSQL_UNSIGNED_BIGINT else MIN_MYSQL_SIGNED_BIGINT : ℤ) : ℚ) ∨
         (((if isUnsigned then MAX_MYSQL_UNSIGNED_BIGINT else MAX_MYSQL_SIGNED_BIGINT : ℤ) : ℚ) < q))) ∧
      (((if isUnsigned then MIN_MYSQL_UNSIGNED_BIGINT else MIN_MYSQL_SIGNED_BIGINT : ℤ) : ℚ) ≤ q →
        q ≤ ((if isUnsigned then MAX_MYSQL_UNSIGNED_BIGINT else MAX_MYSQL_SIGNED_BIGINT : ℤ) : ℚ) →
        goldToMySQLBigInt isUnsigned q = .ok (ratTrunc q)) := by
  intro q isUnsigned
  unfold goldToMySQLBigInt goldToBigInt
  dsimp only
  rcases lt_or_le q
      ((if isUnsigned then MIN_MYSQL_UNSIGNED_BIGINT else MIN_MYSQL_SIGNED_BIGINT : ℤ) : ℚ)
    with hl | hl
  · rw [if_pos hl]
    refine ⟨⟨fun _ => Or.inl hl, fun _ => rfl⟩, ?_⟩
    intro hmin _
    exact absurd hl (not_lt.mpr hmin)
  · rw [if_neg (not_lt.mpr hl)]
    rcases lt_or_le
        ((if isUnsigned then MAX_MYSQL_UNSIGNED_BIGINT else MAX_MYSQL_SIGNED_BIGINT : ℤ) : ℚ) q
      with hh | hh
    · rw [if_pos hh]
      refine ⟨⟨fun _ => Or.inr hh, fun _ => rfl⟩, ?_⟩
      intro _ hmax
      exact absurd hh (not_lt.mpr hmax)
    · rw [if_neg (not_lt.mpr hh)]
      refine ⟨⟨fun h => Except.noConfusion h, ?_⟩, fun _ _ => rfl⟩
      intro h
      rcases h with h | h
      · exact absurd h (not_lt.mpr hl)
      · exact absurd h (not_lt.mpr hh)

/-- C6 amended, witnessed at raw copper 5 in the signed domain. -/
theorem c6_amended_witness :
    goldToMySQLBigInt false 5 = .ok (ratTrunc 5) :=
  (c6_amended 5 false).2 (by decide) (by decide)

/-- C7 counterexample: "-1g 23s 45c" parses under GenericGold to −12,345
copper; the claimed value −2,345 is not what the claimed formula
−(1×10000 + 23×100 + 45) evaluates to. -/
theorem c7_counterexample :
    genericGoldParseCopper ("-1g 23s 45c".data) = some (-12345) ∧
    (-12345 : ℚ) ≠ -2345 := by
  constructor
  · have h : genericGoldMatch "-1g 23s 45c".data =
        some ⟨true, ['1'], none, some 'g', some (.andSC ['2', '3'] ['4', '5'])⟩ := by decide
    simp [genericGoldParseCopper, h, genericGoldValue, ggSilverCap, ggCopperCap, natOfDigits,
      fracOfDigits, appSign, stripSeps, isSep, goldNoteCopperMult, goldNoteMult, isGoldNote,
      COPPER_PER_GOLD, COPPER_PER_SILVER]
    norm_num
  · norm_num

/-- C7 amended: "-1g 23s 45c" parses under GenericGold to exactly
−(1×10000 + 23×100 + 45) = −12,345 minor units. -/
theorem c7_amended :
    genericGoldParseCopper ("-1g 23s 45c".data) = some (-(1 * 10000 + 23 * 100 + 45)) := by
  have h : genericGoldMatch "-1g 23s 45c".data =
      some ⟨true, ['1'], none, some 'g', some (.andSC ['2', '3'] ['4', '5'])⟩ := by decide
  simp [genericGoldParseCopper, h, genericGoldValue, ggSilverCap, ggCopperCap, natOfDigits,
    fracOfDigits, appSign, stripSeps, isSep, goldNoteCopperMult, goldNoteMult, isGoldNote,
    COPPER_PER_GOLD, COPPER_PER_SILVER]
  norm_num

/-- C10: dividing a finite Gold value by zero raises InfiniteValueError in
the non-mutating form (the quotient is re-validated by the constructor) but
returns successfully in the mutating form, leaving a non-finite raw copper
quantity behind. -/
theorem c10_div_by_zero :
    ∀ q : ℚ, goldDiv (.fin q) (.fin 0) false = .error .infiniteValue ∧
      goldDiv (.fin q) (.fin 0) true = .ok (decDiv (.fin q) (.fin 0)) ∧
      (decDiv (.fin q) (.fin 0)).isFinite = false := by
  intro q
  rcases lt_trichotomy q 0 with h | h | h
  · simp [goldDiv, decDiv, copperFromDecimal, DecimalValue.isFinite, h.ne, not_lt.mpr h.le,
      h.ne']
  · subst h
    simp [goldDiv, decDiv, copperFromDecimal, DecimalValue.isFinite]
  · simp [goldDiv, decDiv, copperFromDecimal, DecimalValue.isFinite, h, h.ne']

/-- Truncated-division remainder of a non-negative dividend by a positive
divisor lies in `[0, y)`. -/
theorem decMod_nonneg_lt {x y : ℚ} (hx : 0 ≤ x) (hy : 0 < y) :
    0 ≤ decMod x y ∧ decMod x y < y := by
  have hq : (0 : ℚ) ≤ x / y := div_nonneg hx hy.le
  have htr : ratTrunc (x / y) = ⌊x / y⌋ := by
    unfold ratTrunc
    rw [if_neg (not_lt.mpr hq)]
  unfold decMod
  rw [htr]
  constructor
  · have h1 : (⌊x / y⌋ : ℚ) ≤ x / y := Int.floor_le _
    have h2 : y * (⌊x / y⌋ : ℚ) ≤ y * (x / y) := by
      exact mul_le_mul_of_nonneg_left h1 hy.le
    rw [mul_div_cancel₀ x hy.ne'] at h2
    linarith
  · have h1 : x / y < ⌊x / y⌋ + 1 := Int.lt_floor_add_one _
    have h2 : y * (x / y) < y * ((⌊x / y⌋ : ℚ) + 1) := by
      exact mul_lt_mul_of_pos_left h1 hy
    rw [mul_div_cancel₀ x hy.ne'] at h2
    linarith

theorem silverSeg_bounds (q : ℚ) : 0 ≤ silverSeg q ∧ silverSeg q ≤ 99 := by
  have hx : (0 : ℚ) ≤ |q| := abs_nonneg q
  have hg : (0 : ℚ) < COPPER_PER_GOLD := by norm_num [COPPER_PER_GOLD]
  have hs : (0 : ℚ) < COPPER_PER_SILVER := by norm_num [COPPER_PER_SILVER]
  obtain ⟨hm0, hm1⟩ := decMod_nonneg_lt hx hg
  unfold silverSeg
  constructor
  · exact Int.floor_nonneg.mpr (div_nonneg hm0 hs.le)
  · have hlt : decMod |q| COPPER_PER_GOLD / COPPER_PER_SILVER < 100 := by
      rw [div_lt_iff₀ hs]
      calc decMod |q| COPPER_PER_GOLD < COPPER_PER_GOLD := hm1
        _ = 100 * COPPER_PER_SILVER := by norm_num [COPPER_PER_GOLD, COPPER_PER_SILVER]
    have := Int.floor_lt.mpr (show decMod |q| COPPER_PER_GOLD / COPPER_PER_SILVER <
        ((100 : ℤ) : ℚ) by exact_mod_cast hlt)
    omega

theorem copperSeg_bounds (q : ℚ) : 0 ≤ copperSeg q ∧ copperSeg q ≤ 99 := by
  have hx : (0 : ℚ) ≤ |q| := abs_nonneg q
  have hs : (0 : ℚ) < COPPER_PER_SILVER := by norm_num [COPPER_PER_SILVER]
  obtain ⟨hc0, hc1⟩ := decMod_nonneg_lt hx hs
  unfold copperSeg
  constructor
  · exact Int.floor_nonneg.mpr hc0
  · have hlt : decMod |q| COPPER_PER_SILVER < 100 := by
      calc decMod |q| COPPER_PER_SILVER < COPPER_PER_SILVER := hc1
        _ = 100 := by norm_num [COPPER_PER_SILVER]
    have := Int.floor_lt.mpr (show decMod |q| COPPER_PER_SILVER < ((100 : ℤ) : ℚ) by
      exact_mod_cast hlt)
    omega

/-- C8: for every raw copper amount, sign and fractional part included, the
silver and copper segment getters produce integers between 0 and 99. -/
theorem c8_segment_ranges :
    ∀ q : ℚ, 0 ≤ silverSeg q ∧ silverSeg q ≤ 99 ∧ 0 ≤ copperSeg q ∧ copperSeg q ≤ 99 :=
  fun q => ⟨(silverSeg_bounds q).1, (silverSeg_bounds q).2,
    (copperSeg_bounds q).1, (copperSeg_bounds q).2⟩

/-- C4: with no pinned expression type, `Gold.parse` and
`Gold.isGoldExpression` run the same ordered search over exactly the four
default expression types ExplicitCopper, SilverAndCopper, SilverOrCopper,
GenericGold: the first type whose match succeeds determines the parse result,
every successful default parse value comes from one of these four types (so
ExplicitGold and ExplicitOnlyGold are never consulted), and the boolean test
is the ordered disjunction of the same four type tests. -/
theorem c4_default_dispatch :
    (∀ cs v, explicitCopperParseCopper (trim cs) = some v →
      goldParse (some cs) false = .ok v) ∧
    (∀ cs v, explicitCopperParseCopper (trim cs) = none →
      silverAndCopperParseCopper (trim cs) = some v →
      goldParse (some cs) false = .ok v) ∧
    (∀ cs v, explicitCopperParseCopper (trim cs) = none →
      silverAndCopperParseCopper (trim cs) = none →
      silverOrCopperParseCopper (trim cs) = some v →
      goldParse (some cs) false = .ok v) ∧
    (∀ cs v, explicitCopperParseCopper (trim cs) = none →
      silverAndCopperParseCopper (trim cs) = none →
      silverOrCopperParseCopper (trim cs) = none →
      genericGoldParseCopper (trim cs) = some v →
      goldParse (some cs) false = .ok v) ∧
    (∀ cs v, goldParse (some cs) false = .ok v →
      explicitCopperParseCopper (trim cs) = some v ∨
      silverAndCopperParseCopper (trim cs) = some v ∨
      silverOrCopperParseCopper (trim cs) = some v ∨
      genericGoldParseCopper (trim cs) = some v) ∧
    (∀ cs, goldIsExpression (some cs) false =
      (explicitCopperTest (trim cs) || silverAndCopperTest (trim cs) ||
       silverOrCopperTest (trim cs) || genericGoldTest (trim cs))) := by
  refine ⟨?_, ?_, ?_, ?_, ?_, ?_⟩
  · intro cs v h
    simp [goldParse, firstSome, defaultParsers, h]
  · intro cs v h1 h2
    simp [goldParse, firstSome, defaultParsers, h1, h2]
  · intro cs v h1 h2 h3
    simp [goldParse, firstSome, defaultParsers, h1, h2, h3]
  · intro cs v h1 h2 h3 h4
    simp [goldParse, firstSome, defaultParsers, h1, h2, h3, h4]
  · intro cs v h
    rcases hec : explicitCopperParseCopper (trim cs) with _ | w
    · rcases hsac : silverAndCopperParseCopper (trim cs) with _ | w
      · rcases hsoc : silverOrCopperParseCopper (trim cs) with _ | w
        · rcases hgg : genericGoldParseCopper (trim cs) with _ | w
          · simp [goldParse, firstSome, defaultParsers, hec, hsac, hsoc, hgg] at h
          · simp [goldParse, firstSome, defaultParsers, hec, hsac, hsoc, hgg] at h
            subst h
            exact Or.inr (Or.inr (Or.inr rfl))
        · simp [goldParse, firstSome, defaultParsers, hec, hsac, hsoc] at h
          subst h
          exact Or.inr (Or.inr (Or.inl rfl))
      · simp [goldParse, firstSome, defaultParsers, hec, hsac] at h
        subst h
        exact Or.inr (Or.inl rfl)
    · simp [goldParse, firstSome, defaultParsers, hec] at h
      subst h
      exact Or.inl rfl
  · intro cs
    simp [goldIsExpression, defaultTests, Bool.or_assoc]

/-- C4 witnessed at "12c", which ExplicitCopper (the first default type)
matches. -/
theorem c4_default_dispatch_witness :
    goldParse (some ("12c".data)) false = .ok 12 := by
  have hm : explicitCopperMatch (trim "12c".data) = some ⟨false, ['1', '2'], none⟩ := by decide
  have h : explicitCopperParseCopper (trim ("12c".data)) = some 12 := by
    simp [explicitCopperParseCopper, hm, explicitCopperValue, natOfDigits, appSign, stripSeps,
      isSep]
  exact c4_default_dispatch.1 ("12c".data) 12 h

/-! ## The canonical string parses back to the truncated amount -/

theorem goldSeg_nonneg (q : ℚ) : 0 ≤ goldSeg q :=
  Int.floor_nonneg.mpr (div_nonneg (abs_nonneg q) (by norm_num [COPPER_PER_GOLD]))

/-- Segment decomposition reassembles the floor of the magnitude. -/
theorem seg_decomp (q : ℚ) :
    goldSeg q * 10000 + silverSeg q * 100 + copperSeg q = ⌊|q|⌋ := by
  have hx0 : (0 : ℚ) ≤ |q| := abs_nonneg q
  have h4 : ratTrunc (|q| / COPPER_PER_GOLD) = ⌊|q| / COPPER_PER_GOLD⌋ := by
    unfold ratTrunc
    rw [if_neg (not_lt.mpr (div_nonneg hx0 (by norm_num [COPPER_PER_GOLD])))]
  have h2 : ratTrunc (|q| / COPPER_PER_SILVER) = ⌊|q| / COPPER_PER_SILVER⌋ := by
    unfold ratTrunc
    rw [if_neg (not_lt.mpr (div_nonneg hx0 (by norm_num [COPPER_PER_SILVER])))]
  have hg : goldSeg q = ⌊|q| / 10000⌋ := by
    unfold goldSeg COPPER_PER_GOLD
    norm_num
  have hs : silverSeg q = ⌊|q| / 100⌋ - 100 * ⌊|q| / 10000⌋ := by
    unfold silverSeg decMod
    rw [h4]
    have hx : (|q| - COPPER_PER_GOLD * ((⌊|q| / COPPER_PER_GOLD⌋ : ℤ) : ℚ)) /
        COPPER_PER_SILVER = |q| / 100 - ((100 * ⌊|q| / 10000⌋ : ℤ) : ℚ) := by
      unfold COPPER_PER_GOLD COPPER_PER_SILVER
      push_cast
      ring
    rw [hx, Int.floor_sub_int]
  have hc : copperSeg q = ⌊|q|⌋ - 100 * ⌊|q| / 100⌋ := by
    unfold copperSeg decMod
    rw [h2]
    have hx : |q| - COPPER_PER_SILVER * ((⌊|q| / COPPER_PER_SILVER⌋ : ℤ) : ℚ) =
        |q| - ((100 * ⌊|q| / 100⌋ : ℤ) : ℚ) := by
      unfold COPPER_PER_SILVER
      push_cast
      ring
    rw [hx, Int.floor_sub_int]
  rw [hg, hs, hc]
  ring

theorem group3_head {ds : List Char} (hne : ds ≠ [])
    (hdig : ∀ c ∈ ds, isDig c = true) :
    ∃ d t, group3 ds = d :: t ∧ isDig d = true := by
  obtain ⟨d, ds', rfl⟩ : ∃ d ds', ds = d :: ds' := by
    rcases ds with _ | ⟨d, ds'⟩
    · exact absurd rfl hne
    · exact ⟨d, ds', rfl⟩
  obtain ⟨m, hm⟩ : ∃ m, ((d :: ds').length + 2) % 3 + 1 = m + 1 := ⟨_, rfl⟩
  refine ⟨d, ds'.take m ++ groupTail ((d :: ds').drop (m + 1)), ?_, hdig d (by simp)⟩
  simp only [group3, hm, List.take_succ_cons]
  rfl

theorem goldNoteCopperMult_g : goldNoteCopperMult (some 'g') = 10000 := by
  simp only [goldNoteCopperMult, goldNoteMult, show isGoldNote 'g' = true by decide,
    show ('g' == 'k') = false by decide, show ('g' == 'm') = false by decide,
    show ('g' == 'b') = false by decide, Bool.false_eq_true, if_false, if_true]
  norm_num [COPPER_PER_GOLD]

/-- The GenericGold match of a canonical `toString` rendering. -/
theorem genericGoldMatch_toString (q : ℚ) :
    genericGoldMatch (goldToString q) =
      some ⟨goldIsNegative q, group3 (natDigits (goldSeg q).toNat), none, some 'g',
        some (.andSC (pad2 (silverSeg q).toNat) (pad2 (copperSeg q).toNat))⟩ := by
  have hds_dig := natDigits_digits (goldSeg q).toNat
  have hds_ne := natDigits_ne_nil (goldSeg q).toNat
  have hsl99 : (silverSeg q).toNat ≤ 99 := by
    have := silverSeg_bounds q
    omega
  have hcp99 : (copperSeg q).toNat ≤ 99 := by
    have := copperSeg_bounds q
    omega
  obtain ⟨s1, s2, hS, hs1, hs2⟩ := pad2_two hsl99
  obtain ⟨c1, c2, hC, hc1, hc2⟩ := pad2_two hcp99
  set G := group3 (natDigits (goldSeg q).toNat) with hG
  have hGchars := group3_chars hds_dig
  rw [← hG] at hGchars
  have hF : goldToString q = (if goldIsNegative q then ['-'] else []) ++
      (G ++ 'g' :: ' ' :: s1 :: s2 :: 's' :: ' ' :: c1 :: c2 :: ['c']) := by
    simp only [goldToString, hS, hC, ← hG, List.cons_append, List.nil_append,
      List.append_assoc]
  have e2 : goldIntCapture (G ++ 'g' :: ' ' :: s1 :: s2 :: 's' :: ' ' :: c1 :: c2 :: ['c']) =
      some (G, 'g' :: ' ' :: s1 :: s2 :: 's' :: ' ' :: c1 :: c2 :: ['c']) :=
    goldIntCapture_group3 hds_ne hds_dig (by decide) (by decide) (by decide) _
  have e3 : fracCapture ('g' :: ' ' :: s1 :: s2 :: 's' :: ' ' :: c1 :: c2 :: ['c']) =
      (none, 'g' :: ' ' :: s1 :: s2 :: 's' :: ' ' :: c1 :: c2 :: ['c']) :=
    fracCapture_of_head (by decide) _
  have e4 : noteCapture ('g' :: ' ' :: s1 :: s2 :: 's' :: ' ' :: c1 :: c2 :: ['c']) =
      (some 'g', ' ' :: s1 :: s2 :: 's' :: ' ' :: c1 :: c2 :: ['c']) :=
    noteCapture_of_note (by decide) _
  have hnodot : ('.' : Char) ∉ G.reverse ++ (if goldIsNegative q then ['-'] else []) := by
    intro hmem
    rcases List.mem_append.mp hmem with hmem | hmem
    · rcases hGchars '.' (List.mem_reverse.mp hmem) with hq | hq
      · exact absurd hq (by decide)
      · exact absurd hq (by decide)
    · rcases hb : goldIsNegative q
      all_goals rw [hb] at hmem
      · simp at hmem
      · simp at hmem
  have hgate : suffixGate (ggRev (goldIsNegative q) G none (some 'g')) = true := by
    have hrev : ggRev (goldIsNegative q) G none (some 'g') =
        'g' :: (G.reverse ++ (if goldIsNegative q then ['-'] else [])) := by
      simp [ggRev]
    rw [hrev]
    simp only [suffixGate]
    rw [endsDotDigits_no_dot hnodot]
    rfl
  have e5 : ggSuffixCapture (ggRev (goldIsNegative q) G none (some 'g'))
      (' ' :: s1 :: s2 :: 's' :: ' ' :: c1 :: c2 :: ['c']) =
      (some (.andSC [s1, s2] [c1, c2]), []) := by
    have t1 : twoDigitUnit false 's' (s1 :: s2 :: 's' :: ' ' :: c1 :: c2 :: ['c']) =
        some ([s1, s2], ' ' :: c1 :: c2 :: ['c']) := by
      simp [twoDigitUnit, charEqCI, hs1, hs2]
    have t2 : twoDigitUnit false 'c' (c1 :: c2 :: ['c']) = some ([c1, c2], []) := by
      simp [twoDigitUnit, charEqCI, hc1, hc2]
    simp [ggSuffixCapture, andSuffixCapture, hgate, List.dropWhile,
      isDig_beq_false (y := ' ') hs1 (by decide), isDig_beq_false (y := ' ') hc1 (by decide),
      t1, t2]
  rw [hF]
  rcases hb : goldIsNegative q
  · have e1 : negCapture (G ++ 'g' :: ' ' :: s1 :: s2 :: 's' :: ' ' :: c1 :: c2 :: ['c']) =
        (false, G ++ 'g' :: ' ' :: s1 :: s2 :: 's' :: ' ' :: c1 :: c2 :: ['c']) := by
      obtain ⟨g0, gt, hg0, hg0d⟩ := group3_head hds_ne hds_dig
      rw [← hG] at hg0
      rw [hg0, List.cons_append]
      refine negCapture_of_head ?_ _
      intro hq
      rw [hq] at hg0d
      exact absurd hg0d (by decide)
    rw [hb] at e5
    simp only [if_neg Bool.false_ne_true, List.nil_append]
    unfold genericGoldMatch
    simp only [e1, e2, e3, e4, e5, List.isEmpty_nil, if_true, hS, hC]
  · have e1 : negCapture ('-' :: (G ++ 'g' :: ' ' :: s1 :: s2 :: 's' :: ' ' :: c1 :: c2 :: ['c'])) =
        (true, G ++ 'g' :: ' ' :: s1 :: s2 :: 's' :: ' ' :: c1 :: c2 :: ['c']) := by
      simp [negCapture]
    rw [hb] at e5
    unfold genericGoldMatch
    simp only [if_pos rfl, List.singleton_append, e1, e2, e3, e4, e5, List.isEmpty_nil,
      if_true, hS, hC]

/-- The parser value of the canonical rendering's captures is the truncated
raw amount. -/
theorem genericGoldValue_toString (q : ℚ) :
    genericGoldValue ⟨goldIsNegative q, group3 (natDigits (goldSeg q).toNat), none, some 'g',
      some (.andSC (pad2 (silverSeg q).toNat) (pad2 (copperSeg q).toNat))⟩ =
      ((ratTrunc q : ℤ) : ℚ) := by
  have hds_dig := natDigits_digits (goldSeg q).toNat
  have hsl99 : (silverSeg q).toNat ≤ 99 := by
    have := silverSeg_bounds q
    omega
  have hcp99 : (copperSeg q).toNat ≤ 99 := by
    have := copperSeg_bounds q
    omega
  have key : ((goldSeg q).toNat : ℚ) * 10000 + ((silverSeg q).toNat : ℚ) * 100 +
      ((copperSeg q).toNat : ℚ) = ((⌊|q|⌋ : ℤ) : ℚ) := by
    have h1 : ((goldSeg q).toNat : ℤ) = goldSeg q := Int.toNat_of_nonneg (goldSeg_nonneg q)
    have h2 : ((silverSeg q).toNat : ℤ) = silverSeg q :=
      Int.toNat_of_nonneg (silverSeg_bounds q).1
    have h3 : ((copperSeg q).toNat : ℤ) = copperSeg q :=
      Int.toNat_of_nonneg (copperSeg_bounds q).1
    have h4 := seg_decomp q
    have hcast := congrArg (fun z : ℤ => (z : ℚ)) h4
    push_cast at hcast
    have e1 : ((goldSeg q).toNat : ℚ) = ((goldSeg q : ℤ) : ℚ) := by exact_mod_cast h1
    have e2 : ((silverSeg q).toNat : ℚ) = ((silverSeg q : ℤ) : ℚ) := by exact_mod_cast h2
    have e3 : ((copperSeg q).toNat : ℚ) = ((copperSeg q : ℤ) : ℚ) := by exact_mod_cast h3
    rw [e1, e2, e3]
    exact_mod_cast hcast
  unfold genericGoldValue
  simp only [ggSilverCap, ggCopperCap]
  rw [stripSeps_group3 hds_dig, natOfDigits_natDigits, natOfDigits_pad2 hsl99,
    natOfDigits_pad2 hcp99, goldNoteCopperMult_g]
  rcases hb : goldIsNegative q
  · have hq : ¬q < 0 := by
      have := hb
      unfold goldIsNegative at this
      simpa using this
    have habs : |q| = q := abs_of_nonneg (not_lt.mp hq)
    have htr : ratTrunc q = ⌊q⌋ := by
      unfold ratTrunc
      rw [if_neg hq]
    simp only [appSign, Bool.false_eq_true, if_false]
    rw [htr]
    rw [habs] at key
    rw [show COPPER_PER_SILVER = (100 : ℚ) from rfl]
    exact key
  · have hq : q < 0 := by
      have := hb
      unfold goldIsNegative at this
      simpa using this
    have habs : |q| = -q := abs_of_neg hq
    have htr : ratTrunc q = ⌈q⌉ := by
      unfold ratTrunc
      rw [if_pos hq]
    have hfl : ⌊-q⌋ = -⌈q⌉ := Int.floor_neg
    simp only [appSign, if_true]
    rw [htr]
    rw [habs, hfl] at key
    rw [show COPPER_PER_SILVER = (100 : ℚ) from rfl]
    rw [Int.cast_neg] at key
    linear_combination -key

theorem charEqCI_group3 {ds : List Char} (hdig : ∀ c ∈ ds, isDig c = true)
    {x : Char} (hx : isDig x = false) (hcomma : charEqCI true ',' x = false) :
    ∀ c ∈ group3 ds, charEqCI true c x = false := by
  intro c hc
  rcases group3_chars hdig c hc with h | h
  · exact charEqCI_digit h hx
  · rw [h]
    exact hcomma

/-- Neither silver nor copper capture can start on a grouped gold rendering:
the second and third characters are grouped digits or the `g` marker or a
space, none of which is the unit letter. -/
theorem twoDigitUnit_fail_G {G rest : List Char} {x : Char} (hGne : G ≠ [])
    (hGx : ∀ c ∈ G, charEqCI true c x = false)
    (hgx : charEqCI true 'g' x = false) (hspx : charEqCI true ' ' x = false) :
    twoDigitUnit true x (G ++ 'g' :: ' ' :: rest) = none := by
  apply twoDigitUnit_none2
  intro c hc
  rcases G with _ | ⟨g1, _ | ⟨g2, _ | ⟨g3, t⟩⟩⟩
  · exact absurd rfl hGne
  · simp only [List.cons_append, List.nil_append, List.tail_cons, List.take_succ_cons,
      List.take_zero, List.mem_cons, List.not_mem_nil, or_false] at hc
    rcases hc with rfl | rfl
    · exact hgx
    · exact hspx
  · simp only [List.cons_append, List.nil_append, List.tail_cons, List.take_succ_cons,
      List.take_zero, List.mem_cons, List.not_mem_nil, or_false] at hc
    rcases hc with rfl | rfl
    · exact hGx c (by simp)
    · exact hgx
  · simp only [List.cons_append, List.tail_cons, List.take_succ_cons,
      List.take_zero, List.mem_cons, List.not_mem_nil, or_false] at hc
    rcases hc with rfl | rfl
    · exact hGx c (by simp)
    · exact hGx c (by simp)

/-- Decomposition of the canonical rendering into its fixed shape. -/
theorem goldToString_shape (q : ℚ) :
    ∃ (s1 s2 c1 c2 : Char),
      pad2 (silverSeg q).toNat = [s1, s2] ∧ pad2 (copperSeg q).toNat = [c1, c2] ∧
      isDig s1 = true ∧ isDig s2 = true ∧ isDig c1 = true ∧ isDig c2 = true ∧
      goldToString q = (if goldIsNegative q then ['-'] else []) ++
        (group3 (natDigits (goldSeg q).toNat) ++
          'g' :: ' ' :: s1 :: s2 :: 's' :: ' ' :: c1 :: c2 :: ['c']) := by
  have hsl99 : (silverSeg q).toNat ≤ 99 := by
    have := silverSeg_bounds q
    omega
  have hcp99 : (copperSeg q).toNat ≤ 99 := by
    have := copperSeg_bounds q
    omega
  obtain ⟨s1, s2, hS, hs1, hs2⟩ := pad2_two hsl99
  obtain ⟨c1, c2, hC, hc1, hc2⟩ := pad2_two hcp99
  refine ⟨s1, s2, c1, c2, hS, hC, hs1, hs2, hc1, hc2, ?_⟩
  simp only [goldToString, hS, hC, List.cons_append, List.nil_append, List.append_assoc]

theorem isWS_of_isDig {c : Char} (h : isDig c = true) : isWS c = false := by
  unfold isWS
  rw [isDig_beq_false h (by decide), isDig_beq_false h (by decide),
    isDig_beq_false h (by decide), isDig_beq_false h (by decide)]
  rfl

theorem trim_eq_self {c0 cl : Char} (h0 : isWS c0 = false) (hl : isWS cl = false)
    (mid : List Char) : trim (c0 :: (mid ++ [cl])) = c0 :: (mid ++ [cl]) := by
  unfold trim
  rw [List.dropWhile_cons, if_neg (by simp [h0])]
  have hrev : (c0 :: (mid ++ [cl])).reverse = cl :: (mid.reverse ++ [c0]) := by
    simp
  rw [hrev, List.dropWhile_cons, if_neg (by simp [hl])]
  rw [← hrev, List.reverse_reverse]

theorem trim_toString (q : ℚ) : trim (goldToString q) = goldToString q := by
  obtain ⟨s1, s2, c1, c2, hS, hC, hs1, hs2, hc1, hc2, hF⟩ := goldToString_shape q
  have hds_dig := natDigits_digits (goldSeg q).toNat
  have hds_ne := natDigits_ne_nil (goldSeg q).toNat
  obtain ⟨g0, gt, hg0, hg0d⟩ := group3_head hds_ne hds_dig
  rw [hF]
  rcases hb : goldIsNegative q
  · rw [if_neg (by simp), List.nil_append, hg0, List.cons_append]
    have hshape : gt ++ 'g' :: ' ' :: s1 :: s2 :: 's' :: ' ' :: c1 :: c2 :: ['c'] =
        (gt ++ ['g', ' ', s1, s2, 's', ' ', c1, c2]) ++ ['c'] := by
      simp
    rw [hshape]
    exact trim_eq_self (isWS_of_isDig hg0d) (by decide) _
  · rw [if_pos rfl, List.singleton_append]
    have hshape : group3 (natDigits (goldSeg q).toNat) ++
        'g' :: ' ' :: s1 :: s2 :: 's' :: ' ' :: c1 :: c2 :: ['c'] =
        (group3 (natDigits (goldSeg q).toNat) ++
          ['g', ' ', s1, s2, 's', ' ', c1, c2]) ++ ['c'] := by
      simp
    rw [hshape]
    exact trim_eq_self (by decide) (by decide) _

/-- None of the three expression types tried before GenericGold matches the
canonical rendering: the grouped gold segment blocks the copper- and
silver-first grammars. -/
theorem defaults_fail_toString (q : ℚ) :
    explicitCopperMatch (goldToString q) = none ∧
    silverAndCopperMatch (goldToString q) = none ∧
    silverOrCopperMatch (goldToString q) = none := by
  obtain ⟨s1, s2, c1, c2, hS, hC, hs1, hs2, hc1, hc2, hF⟩ := goldToString_shape q
  have hds_dig := natDigits_digits (goldSeg q).toNat
  have hds_ne := natDigits_ne_nil (goldSeg q).toNat
  set G := group3 (natDigits (goldSeg q).toNat) with hG
  have hGchars := group3_chars hds_dig
  rw [← hG] at hGchars
  have hGne : G ≠ [] := by
    obtain ⟨g0, gt, hg0, _⟩ := group3_head hds_ne hds_dig
    rw [← hG] at hg0
    rw [hg0]
    simp
  have hGs : ∀ c ∈ G, charEqCI true c 's' = false := by
    have := charEqCI_group3 hds_dig (x := 's') (by decide) (by decide)
    rw [← hG] at this
    exact this
  have hGc : ∀ c ∈ G, charEqCI true c 'c' = false := by
    have := charEqCI_group3 hds_dig (x := 'c') (by decide) (by decide)
    rw [← hG] at this
    exact this
  have hfs : twoDigitUnit true 's'
      (G ++ 'g' :: ' ' :: s1 :: s2 :: 's' :: ' ' :: c1 :: c2 :: ['c']) = none :=
    twoDigitUnit_fail_G hGne hGs (by decide) (by decide)
  have hfc : twoDigitUnit true 'c'
      (G ++ 'g' :: ' ' :: s1 :: s2 :: 's' :: ' ' :: c1 :: c2 :: ['c']) = none :=
    twoDigitUnit_fail_G hGne hGc (by decide) (by decide)
  have e2 : goldIntCapture (G ++ 'g' :: ' ' :: s1 :: s2 :: 's' :: ' ' :: c1 :: c2 :: ['c']) =
      some (G, 'g' :: ' ' :: s1 :: s2 :: 's' :: ' ' :: c1 :: c2 :: ['c']) :=
    goldIntCapture_group3 hds_ne hds_dig (by decide) (by decide) (by decide) _
  have e3 : fracCapture ('g' :: ' ' :: s1 :: s2 :: 's' :: ' ' :: c1 :: c2 :: ['c']) =
      (none, 'g' :: ' ' :: s1 :: s2 :: 's' :: ' ' :: c1 :: c2 :: ['c']) :=
    fracCapture_of_head (by decide) _
  rw [hF]
  rcases hb : goldIsNegative q
  · simp only [if_neg Bool.false_ne_true, List.nil_append]
    have e1 : negCapture (G ++ 'g' :: ' ' :: s1 :: s2 :: 's' :: ' ' :: c1 :: c2 :: ['c']) =
        (false, G ++ 'g' :: ' ' :: s1 :: s2 :: 's' :: ' ' :: c1 :: c2 :: ['c']) := by
      obtain ⟨g0, gt, hg0, hg0d⟩ := group3_head hds_ne hds_dig
      rw [← hG] at hg0
      rw [hg0, List.cons_append]
      refine negCapture_of_head ?_ _
      intro hq
      rw [hq] at hg0d
      exact absurd hg0d (by decide)
    refine ⟨?_, ?_, ?_⟩
    · unfold explicitCopperMatch
      simp only [e1, e2, e3]
      simp [show charEqCI true 'g' 'c' = false by decide]
    · unfold silverAndCopperMatch
      simp only [e1, hfs]
    · unfold silverOrCopperMatch
      simp only [e1, hfs, hfc]
  · have e1 : negCapture
        ('-' :: (G ++ 'g' :: ' ' :: s1 :: s2 :: 's' :: ' ' :: c1 :: c2 :: ['c'])) =
        (true, G ++ 'g' :: ' ' :: s1 :: s2 :: 's' :: ' ' :: c1 :: c2 :: ['c']) := by
      simp [negCapture]
    have hif : ((if (true = true) then (['-'] : List Char) else [])) = ['-'] := rfl
    rw [hif, List.singleton_append]
    refine ⟨?_, ?_, ?_⟩
    · unfold explicitCopperMatch
      simp only [e1, e2, e3]
      simp [show charEqCI true 'g' 'c' = false by decide]
    · unfold silverAndCopperMatch
      simp only [e1, hfs]
    · unfold silverOrCopperMatch
      simp only [e1, hfs, hfc]

/-- Parsing the canonical rendering of any amount recovers the truncated
amount: it falls through to GenericGold and evaluates to `ratTrunc`. -/
theorem goldParse_toString (q : ℚ) :
    goldParse (some (goldToString q)) false = .ok ((ratTrunc q : ℤ) : ℚ) := by
  obtain ⟨hec, hsac, hsoc⟩ := defaults_fail_toString q
  have hgg := genericGoldMatch_toString q
  have hval := genericGoldValue_toString q
  unfold goldParse
  simp only [Bool.false_eq_true, if_false, trim_toString q, firstSome, defaultParsers,
    explicitCopperParseCopper, silverAndCopperParseCopper, silverOrCopperParseCopper,
    genericGoldParseCopper, hec, hsac, hsoc, hgg, Option.map_none', Option.map_some', hval]

theorem ratTrunc_intCast (z : ℤ) : ratTrunc ((z : ℤ) : ℚ) = z := by
  unfold ratTrunc
  split_ifs
  · exact Int.ceil_intCast z
  · exact Int.floor_intCast z

/-- C9: for every string `s` accepted by the default grammars, the amount
`parse(toString(parse(s)))` is a fixed point of the round trip: rendering it
with the canonical formatter and parsing again yields the same amount, even
though `toString(parse(s))` need not equal `s` verbatim. -/
theorem c9_roundtrip_fixed_point (s : List Char) (a a' : ℚ)
    (h1 : goldParse (some s) false = .ok a)
    (h2 : goldParse (some (goldToString a)) false = .ok a') :
    goldParse (some (goldToString a')) false = .ok a' := by
  have hpa := goldParse_toString a
  rw [h2] at hpa
  have ha' : a' = ((ratTrunc a : ℤ) : ℚ) := by
    injection hpa
  subst ha'
  rw [goldParse_toString, ratTrunc_intCast]

theorem c9_roundtrip_fixed_point_witness :
    goldParse (some (goldToString (0 : ℚ))) false = .ok (0 : ℚ) := by
  have htr0 : ratTrunc (0 : ℚ) = 0 := by
    unfold ratTrunc
    simp
  refine c9_roundtrip_fixed_point ('0' :: ['c']) 0 0 ?_ ?_
  · have htr : trim ('0' :: ['c']) = '0' :: ['c'] := by decide
    have hm : explicitCopperMatch ('0' :: ['c']) = some ⟨false, ['0'], none⟩ := by decide
    simp [goldParse, htr, firstSome, defaultParsers, explicitCopperParseCopper, hm,
      explicitCopperValue, natOfDigits, stripSeps, isSep, appSign]
  · rw [goldParse_toString, htr0]
    norm_num

end WowGold
